import Mathlib

/-!
Shallow embedding of the resilient external-data layer of the
caltrain-commuter-app repository: the stale-while-revalidate caches
(`EnhancedCache` in `src/lib/utils.ts`, `MemoryCache` in
`src/lib/nba-schedule.ts`), the `CircuitBreaker` and `retryWithBackoff`
utilities (`src/lib/utils.ts`), and the delay reconciliation functions
`getStopDelay` / `getTripDelay` (`src/lib/error-handling.ts`), together
with theorems settling the specification claims about them.

JavaScript `Map` objects are modelled as association lists in insertion
order: `set` of an existing key updates the value in place (keeping the
key's position), `set` of a new key appends, `delete` removes, and
iteration follows the list order, exactly as ECMAScript specifies.
-/

deriving instance DecidableEq for Except

namespace Caltrain

/-- A JavaScript `Map` with string keys, as an insertion-ordered
association list. -/
abbrev JsMap (β : Type) := List (String × β)

namespace JsMap

/-- `m.get(k)` — the value stored at `k`, if any. -/
def find? (k : String) : JsMap β → Option β
  | [] => none
  | kv :: rest => if kv.1 = k then some kv.2 else find? k rest

/-- `m.set(k, v)` — update in place if present, else append (JS `Map#set`). -/
def set (k : String) (v : β) : JsMap β → JsMap β
  | [] => [(k, v)]
  | kv :: rest => if kv.1 = k then (k, v) :: rest else kv :: set k v rest

/-- `m.delete(k)` — remove the binding for `k`, preserving the order of
the remaining entries. -/
def delete (k : String) : JsMap β → JsMap β
  | [] => []
  | kv :: rest => if kv.1 = k then delete k rest else kv :: delete k rest

/-- `m.keys().next().value` — the first key in iteration order. -/
def firstKey? (m : JsMap β) : Option String :=
  m.head?.map (·.1)

/-- The keys of the map in iteration order. -/
def keys (m : JsMap β) : List String := m.map (·.1)

theorem find?_set_self (k : String) (v : β) (m : JsMap β) :
    find? k (set k v m) = some v := by
  induction m with
  | nil => simp [find?, set]
  | cons kv rest ih =>
    by_cases h : kv.1 = k
    · simp [set, h, find?]
    · simp [set, h, find?, ih]

theorem find?_set_ne (k k' : String) (v : β) (m : JsMap β) (h : k' ≠ k) :
    find? k' (set k v m) = find? k' m := by
  induction m with
  | nil => simp [find?, set, Ne.symm h]
  | cons kv rest ih =>
    by_cases hk : kv.1 = k
    · have hne : k ≠ k' := Ne.symm h
      simp [set, hk, find?, hne, hk ▸ hne]
    · by_cases hk' : kv.1 = k'
      · simp [set, hk, find?, hk', h]
      · simp [set, hk, find?, hk', ih]

theorem keys_set (k : String) (v : β) (m : JsMap β) :
    keys (set k v m) = if k ∈ keys m then keys m else keys m ++ [k] := by
  induction m with
  | nil => simp [keys, set]
  | cons kv rest ih =>
    by_cases h : kv.1 = k
    · simp [set, keys, h]
    · simp only [set, h, if_false, keys, List.map_cons]
      simp only [keys] at ih
      rw [ih]
      by_cases hm : k ∈ rest.map (·.1)
      · simp [hm, h, Ne.symm h]
      · simp [hm, h, Ne.symm h]

theorem length_set (k : String) (v : β) (m : JsMap β) :
    (set k v m).length = if k ∈ keys m then m.length else m.length + 1 := by
  by_cases hm : k ∈ keys m
  · rw [if_pos hm]
    have h := congrArg List.length (keys_set k v m)
    rw [if_pos hm] at h
    simpa [keys] using h
  · rw [if_neg hm]
    have h := congrArg List.length (keys_set k v m)
    rw [if_neg hm] at h
    simpa [keys] using h

theorem nodup_keys_set (k : String) (v : β) (m : JsMap β)
    (h : (keys m).Nodup) : (keys (set k v m)).Nodup := by
  rw [keys_set]
  by_cases hm : k ∈ keys m
  · simpa [hm] using h
  · simp only [hm, if_false]
    exact List.Nodup.append h (List.nodup_singleton k) (by simpa using hm)

theorem keys_delete (k : String) (m : JsMap β) :
    keys (delete k m) = (keys m).filter (fun k' => k' ≠ k) := by
  induction m with
  | nil => simp [keys, delete]
  | cons kv rest ih =>
    by_cases h : kv.1 = k
    · simpa [delete, keys, h] using ih
    · simp only [delete, h, if_false, keys, List.map_cons, List.filter_cons]
      simp only [keys] at ih
      simp [h, ih]

theorem nodup_keys_delete (k : String) (m : JsMap β)
    (h : (keys m).Nodup) : (keys (delete k m)).Nodup := by
  rw [keys_delete]; exact h.filter _

theorem length_delete_of_mem (k : String) (m : JsMap β)
    (hnd : (keys m).Nodup) (hmem : k ∈ keys m) :
    (delete k m).length + 1 = m.length := by
  induction m with
  | nil => simp [keys] at hmem
  | cons kv rest ih =>
    simp only [keys, List.map_cons, List.nodup_cons] at hnd
    by_cases h : kv.1 = k
    · have hk : k ∉ keys rest := by
        rw [← h]
        simpa [keys] using hnd.1
      have hall : delete k rest = rest := by
        have : ∀ m' : JsMap β, k ∉ keys m' → delete k m' = m' := by
          intro m'
          induction m' with
          | nil => intro _; simp [delete]
          | cons kv' rest' ih' =>
            intro hnm
            simp only [keys, List.map_cons, List.mem_cons, not_or] at hnm
            have h1 : kv'.1 ≠ k := fun he => hnm.1 he.symm
            simp [delete, h1, ih' (by simpa [keys] using hnm.2)]
        exact this rest hk
      simp [delete, h, hall]
    · simp only [keys, List.map_cons, List.mem_cons] at hmem
      rcases hmem with hmem | hmem
      · exact absurd hmem.symm h
      · have := ih hnd.2 (by simpa [keys] using hmem)
        simp only [delete, h, if_false, List.length_cons]
        omega

theorem find?_delete_self (k : String) (m : JsMap β) :
    find? k (delete k m) = none := by
  induction m with
  | nil => simp [find?, delete]
  | cons kv rest ih =>
    by_cases h : kv.1 = k
    · simpa [delete, h] using ih
    · simp [delete, h, find?, ih]

theorem find?_delete_ne (k k' : String) (m : JsMap β) (h : k' ≠ k) :
    find? k' (delete k m) = find? k' m := by
  induction m with
  | nil => simp [find?, delete]
  | cons kv rest ih =>
    by_cases hk : kv.1 = k
    · simp [delete, hk, find?, Ne.symm h, ih]
    · by_cases hk' : kv.1 = k'
      · simp [delete, find?, hk', h]
      · simp [delete, hk, find?, hk', ih]

theorem find?_isSome_iff_mem_keys (k : String) (m : JsMap β) :
    (find? k m).isSome ↔ k ∈ keys m := by
  induction m with
  | nil => simp [find?, keys]
  | cons kv rest ih =>
    by_cases h : kv.1 = k
    · simp [find?, h, keys]
    · simp only [find?, h, if_false, keys, List.map_cons, List.mem_cons]
      simp only [keys] at ih
      rw [ih]
      constructor
      · exact Or.inr
      · rintro (hh | hh)
        · exact absurd hh.symm h
        · exact hh

theorem find?_eq_none_of_not_mem_keys (k : String) (m : JsMap β)
    (h : k ∉ keys m) : find? k m = none := by
  cases hf : find? k m with
  | none => rfl
  | some v => exact absurd ((find?_isSome_iff_mem_keys k m).1 (by simp [hf])) h

theorem mem_keys_set_iff (k k' : String) (v : β) (m : JsMap β) :
    k' ∈ keys (set k v m) ↔ k' = k ∨ k' ∈ keys m := by
  rw [keys_set]
  by_cases hm : k ∈ keys m
  · simp only [hm, if_true]
    constructor
    · exact Or.inr
    · rintro (h | h)
      · rwa [h]
      · exact h
  · simp only [hm, if_false, List.mem_append, List.mem_singleton]
    tauto

theorem mem_of_mem_set (k : String) (v : β) (kv' : String × β) (m : JsMap β)
    (h : kv' ∈ set k v m) : kv' = (k, v) ∨ kv' ∈ m := by
  induction m with
  | nil => simpa [set] using h
  | cons kv rest ih =>
      by_cases hk : kv.1 = k
      · rw [set, if_pos hk] at h
        rcases List.mem_cons.mp h with hh | hh
        · exact Or.inl hh
        · exact Or.inr (List.mem_cons_of_mem kv hh)
      · rw [set, if_neg hk] at h
        rcases List.mem_cons.mp h with hh | hh
        · exact Or.inr (hh ▸ List.mem_cons_self kv rest)
        · rcases ih hh with hh2 | hh2
          · exact Or.inl hh2
          · exact Or.inr (List.mem_cons_of_mem kv hh2)

theorem mem_set_of_mem_ne (k : String) (v : β) (kv' : String × β) (m : JsMap β)
    (h : kv' ∈ m) (hne : kv'.1 ≠ k) : kv' ∈ set k v m := by
  induction m with
  | nil => simp at h
  | cons kv rest ih =>
      by_cases hk : kv.1 = k
      · rw [set, if_pos hk]
        rcases List.mem_cons.mp h with hh | hh
        · exact absurd (hh ▸ hk) hne
        · exact List.mem_cons_of_mem _ hh
      · rw [set, if_neg hk]
        rcases List.mem_cons.mp h with hh | hh
        · exact hh ▸ List.mem_cons_self kv _
        · exact List.mem_cons_of_mem kv (ih hh)

theorem mem_of_find?_eq_some (k : String) (v : β) (m : JsMap β)
    (h : find? k m = some v) : (k, v) ∈ m := by
  induction m with
  | nil => simp [find?] at h
  | cons kv rest ih =>
      by_cases hk : kv.1 = k
      · rw [find?, if_pos hk] at h
        simp only [Option.some_inj] at h
        have hkv : kv = (k, v) := by
          obtain ⟨k0, v0⟩ := kv
          simp only at hk h
          rw [hk, h]
        rw [← hkv]
        exact List.mem_cons_self kv rest
      · rw [find?, if_neg hk] at h
        exact List.mem_cons_of_mem kv (ih h)

theorem find?_eq_some_of_mem (k : String) (v : β) (m : JsMap β)
    (hnd : (keys m).Nodup) (hmem : (k, v) ∈ m) : find? k m = some v := by
  induction m with
  | nil => simp at hmem
  | cons kv rest ih =>
      simp only [keys, List.map_cons, List.nodup_cons] at hnd
      rcases List.mem_cons.mp hmem with hh | hh
      · rw [← hh, find?, if_pos rfl]
      · have hk : kv.1 ≠ k := by
          intro he
          exact hnd.1 (he ▸ List.mem_map_of_mem Prod.fst hh)
        rw [find?, if_neg hk]
        exact ih hnd.2 hh

theorem mem_delete_iff (k : String) (kv' : String × β) (m : JsMap β) :
    kv' ∈ delete k m ↔ kv' ∈ m ∧ kv'.1 ≠ k := by
  induction m with
  | nil => simp [delete]
  | cons kv rest ih =>
      by_cases h : kv.1 = k
      · rw [delete, if_pos h, ih]
        simp only [List.mem_cons]
        constructor
        · intro hh
          exact ⟨Or.inr hh.1, hh.2⟩
        · rintro ⟨hh | hh, hne⟩
          · exact absurd (hh ▸ h) hne
          · exact ⟨hh, hne⟩
      · rw [delete, if_neg h]
        simp only [List.mem_cons, ih]
        constructor
        · rintro (hh | hh)
          · exact ⟨Or.inl hh, hh ▸ h⟩
          · exact ⟨Or.inr hh.1, hh.2⟩
        · rintro ⟨hh | hh, hne⟩
          · exact Or.inl hh
          · exact Or.inr ⟨hh, hne⟩

end JsMap

/-! ### Errors and retry policy (`src/lib/utils.ts`) -/

/-- A JavaScript `Error` as `retryWithBackoff` inspects it: `status` is
present exactly when the code attached a numeric `status` field (the
`HTTP ${status}` errors thrown by `executeWithCircuitBreaker`), and
`message` is the error message string. -/
structure JsError where
  status : Option Int
  message : String
  deriving DecidableEq, Repr

/-- `RetryConfig` from `src/lib/utils.ts` (delay-shaping fields that the
claims do not observe are kept for faithfulness). -/
structure RetryConfig where
  maxRetries : Nat
  baseDelayMs : Int
  maxDelayMs : Int
  backoffMultiplier : Int
  retryableStatusCodes : List Int
  retryableErrors : List String
  deriving Repr

/-- `DEFAULT_RETRY_CONFIG` from `src/lib/utils.ts`. -/
def DEFAULT_RETRY_CONFIG : RetryConfig :=
  { maxRetries := 3
    baseDelayMs := 1000
    maxDelayMs := 30000
    backoffMultiplier := 2
    retryableStatusCodes := [429, 502, 503, 504]
    retryableErrors := ["ECONNRESET", "ENOTFOUND", "ECONNREFUSED", "ETIMEDOUT"] }

/-- ASCII lower-casing of one character, as `String#toLowerCase` acts on
the ASCII strings this code compares. -/
def jsCharLower (c : Char) : Char :=
  if 65 ≤ c.toNat ∧ c.toNat ≤ 90 then Char.ofNat (c.toNat + 32) else c

/-- `s.toLowerCase()` on an ASCII string, as a character list. -/
def jsToLower (s : String) : List Char := s.toList.map jsCharLower

/-- JavaScript `hay.includes(needle)` on strings (substring test). -/
def strIncludes (hay needle : List Char) : Bool :=
  (List.range (hay.length + 1)).any (fun i => needle.isPrefixOf (hay.drop i))

/-- `isRetryableError` from `src/lib/utils.ts`: an error with a numeric
`status` field is retryable iff the status is in
`config.retryableStatusCodes`; otherwise the lower-cased message is
checked for the lower-cased retryable network error strings. -/
def isRetryableError (e : JsError) (config : RetryConfig) : Bool :=
  match e.status with
  | some s => config.retryableStatusCodes.contains s
  | none =>
      config.retryableErrors.any
        (fun r => strIncludes (jsToLower e.message) (jsToLower r))

/-- One observable event of a `retryWithBackoff` run: an invocation of the
operation (with its 0-based attempt index) or a backoff sleep taken after
the given attempt. -/
inductive RetryEvent
  | invoke (attempt : Nat)
  | sleep (afterAttempt : Nat)
  deriving DecidableEq, Repr

/-- Loop body of `retryWithBackoff` (`src/lib/utils.ts`): `attempt` is the
current 0-based attempt index and `remaining` the number of attempts still
allowed after this one (`config.maxRetries - attempt`). The operation is
modelled as a function from attempt index to its outcome. Returns the
surfaced result and the trace of invocations and sleeps, in order. -/
def retryLoop (op : Nat → Except JsError V) (config : RetryConfig)
    (attempt : Nat) : Nat → Except JsError V × List RetryEvent
  | 0 =>
      -- attempt == config.maxRetries: on failure, break and rethrow
      -- the last error; never sleep.
      match op attempt with
      | .ok v => (.ok v, [.invoke attempt])
      | .error e => (.error e, [.invoke attempt])
  | remaining + 1 =>
      match op attempt with
      | .ok v => (.ok v, [.invoke attempt])
      | .error e =>
          if isRetryableError e config then
            let next := retryLoop op config (attempt + 1) remaining
            (next.1, .invoke attempt :: .sleep attempt :: next.2)
          else
            (.error e, [.invoke attempt])

/-- `retryWithBackoff` from `src/lib/utils.ts`, as the result plus the
trace of operation invocations and backoff sleeps. -/
def retryWithBackoff (op : Nat → Except JsError V) (config : RetryConfig) :
    Except JsError V × List RetryEvent :=
  retryLoop op config 0 config.maxRetries

/-- Number of operation invocations recorded in a retry trace. -/
def invocationCount (evs : List RetryEvent) : Nat :=
  (evs.filter (fun ev => match ev with | .invoke _ => true | _ => false)).length

/-! ### Circuit breaker (`src/lib/utils.ts`) -/

/-- `CircuitBreakerState` from `src/lib/utils.ts`. -/
inductive CircuitBreakerState
  | closed
  | opened
  | halfOpen
  deriving DecidableEq, Repr

/-- `CircuitBreakerConfig` from `src/lib/utils.ts` (the
`monitoringPeriodMs` field is never read by the breaker and is omitted). -/
structure CircuitBreakerConfig where
  failureThreshold : Nat
  resetTimeoutMs : Int
  deriving Repr

/-- The mutable fields of the `CircuitBreaker` class in
`src/lib/utils.ts`. -/
structure CircuitBreaker where
  state : CircuitBreakerState
  failures : Nat
  lastFailureTime : Int
  successCount : Nat
  deriving DecidableEq, Repr

/-- A freshly constructed `CircuitBreaker`: `CLOSED`, all fields zero. -/
def CircuitBreaker.init : CircuitBreaker :=
  { state := .closed, failures := 0, lastFailureTime := 0, successCount := 0 }

/-- `CircuitBreaker.onSuccess`: clear `failures`; in `HALF_OPEN`,
increment `successCount` and close the breaker once it reaches 3. -/
def CircuitBreaker.onSuccess (b : CircuitBreaker) : CircuitBreaker :=
  let b := { b with failures := 0 }
  if b.state = .halfOpen then
    let sc := b.successCount + 1
    if 3 ≤ sc then { b with state := .closed, successCount := sc }
    else { b with successCount := sc }
  else b

/-- `CircuitBreaker.onFailure`: increment `failures`, stamp
`lastFailureTime`, and open the breaker once `failures` reaches the
threshold. -/
def CircuitBreaker.onFailure (b : CircuitBreaker) (config : CircuitBreakerConfig)
    (now : Int) : CircuitBreaker :=
  let b := { b with failures := b.failures + 1, lastFailureTime := now }
  if config.failureThreshold ≤ b.failures then { b with state := .opened } else b

/-- Outcome of one `CircuitBreaker.execute` call: the operation's value or
error when it was invoked, or a `Circuit breaker ... is OPEN` rejection
thrown without invoking it. -/
inductive ExecOutcome (V : Type)
  | value (v : V)
  | failure (e : JsError)
  | rejected
  deriving DecidableEq, Repr

/-- `CircuitBreaker.execute` from `src/lib/utils.ts`, with the wrapped
operation's outcome supplied as `opResult`: when the breaker is `OPEN`
and the reset timeout has not yet elapsed the call is rejected and
`opResult` is never consulted; otherwise (after an `OPEN → HALF_OPEN`
transition when the timeout has elapsed) the operation runs and
`onSuccess` / `onFailure` is applied to its outcome. -/
def CircuitBreaker.execute (b : CircuitBreaker) (config : CircuitBreakerConfig)
    (now : Int) (opResult : Except JsError V) :
    ExecOutcome V × CircuitBreaker :=
  if b.state = .opened ∧ ¬ config.resetTimeoutMs < now - b.lastFailureTime then
    (.rejected, b)
  else
    let b1 :=
      if b.state = .opened then { b with state := .halfOpen, successCount := 0 }
      else b
    match opResult with
    | .ok v => (.value v, b1.onSuccess)
    | .error e => (.failure e, b1.onFailure config now)

/-- One step of a breaker run: apply `execute` at a time with an operation
outcome and keep the new breaker state. -/
def CircuitBreaker.step (config : CircuitBreakerConfig) (b : CircuitBreaker)
    (call : Int × Except JsError Unit) : CircuitBreaker :=
  (b.execute config call.1 call.2).2

/-- Run a breaker through a sequence of timed calls. -/
def CircuitBreaker.run (b : CircuitBreaker) (config : CircuitBreakerConfig)
    (calls : List (Int × Except JsError Unit)) : CircuitBreaker :=
  calls.foldl (CircuitBreaker.step config) b

/-! ### `EnhancedCache` (`src/lib/utils.ts`) -/

/-- `CacheConfig` from `src/lib/utils.ts`; `staleWhileRevalidateMs` is an
optional field, and the code tests it for JS truthiness (absent and `0`
both disable the stale window). -/
structure CacheConfig where
  ttlMs : Int
  maxSize : Nat
  staleWhileRevalidateMs : Option Int
  deriving Repr

/-- `DEFAULT_CACHE_CONFIG` from `src/lib/utils.ts`. -/
def DEFAULT_CACHE_CONFIG : CacheConfig :=
  { ttlMs := 300000, maxSize := 1000, staleWhileRevalidateMs := some 600000 }

/-- The `CacheEntry` record stored by `EnhancedCache`. -/
structure CacheEntry (V : Type) where
  data : V
  timestamp : Int
  isStale : Bool
  deriving DecidableEq, Repr

/-- The state of an `EnhancedCache` instance: the entry map plus the set
of keys with an in-flight background revalidation
(`revalidationPromises`). -/
structure EnhancedCache (V : Type) where
  config : CacheConfig
  cache : JsMap (CacheEntry V)
  revalidationPromises : List String
  deriving Repr

/-- A freshly constructed `EnhancedCache`. -/
def EnhancedCache.empty (config : CacheConfig) : EnhancedCache V :=
  { config := config, cache := [], revalidationPromises := [] }

/-- `EnhancedCache.set` from `src/lib/utils.ts`: when the map has reached
`maxSize`, delete the first key in iteration order — but only when that
key is truthy, so an empty-string first key is skipped — then store the
new entry with a fresh timestamp. -/
def EnhancedCache.set (c : EnhancedCache V) (key : String) (data : V)
    (now : Int) : EnhancedCache V :=
  let cache1 :=
    if c.config.maxSize ≤ c.cache.length then
      match JsMap.firstKey? c.cache with
      | some k0 => if k0 = "" then c.cache else JsMap.delete k0 c.cache
      | none => c.cache
    else c.cache
  { c with cache := JsMap.set key ⟨data, now, false⟩ cache1 }

/-- Which branch an `EnhancedCache.get` call took: a fresh hit, a stale
hit (recording whether a background revalidation was started), or a miss
whose synchronous fetch succeeded or failed. -/
inductive GetKind
  | fresh
  | staleHit (spawned : Bool)
  | missOk
  | missErr
  deriving DecidableEq, Repr

/-- The truthiness test `this.config.staleWhileRevalidateMs &&
(now - entry.timestamp) < this.config.staleWhileRevalidateMs` guarding
the stale branch of `EnhancedCache.get`. -/
def staleGate (swr : Option Int) (age : Int) : Bool :=
  match swr with
  | none => false
  | some s => decide (s ≠ 0) && decide (age < s)

/-- `EnhancedCache.get` from `src/lib/utils.ts`. The synchronous fetcher
outcome is supplied as `fetched`; a background revalidation is modelled by
adding the key to `revalidationPromises` (the spawned task completes via
`EnhancedCache.revalidateSuccess` / `revalidateFailure`). Fresh when
`now - timestamp < ttlMs`; stale-served while
`now - timestamp < staleWhileRevalidateMs` (an absolute window measured
from the entry's timestamp); otherwise a synchronous fetch-and-cache. -/
def EnhancedCache.get (c : EnhancedCache V) (key : String) (now : Int)
    (fetched : Except JsError V) :
    (Except JsError V × GetKind) × EnhancedCache V :=
  let fetchAndCache : (Except JsError V × GetKind) × EnhancedCache V :=
    match fetched with
    | .ok v => ((.ok v, .missOk), c.set key v now)
    | .error e => ((.error e, .missErr), c)
  match JsMap.find? key c.cache with
  | some entry =>
      if now - entry.timestamp < c.config.ttlMs then
        ((.ok entry.data, .fresh), c)
      else if staleGate c.config.staleWhileRevalidateMs (now - entry.timestamp) then
        if key ∈ c.revalidationPromises then
          ((.ok entry.data, .staleHit false), c)
        else
          ((.ok entry.data, .staleHit true),
            { c with revalidationPromises := key :: c.revalidationPromises })
      else fetchAndCache
  | none => fetchAndCache

/-- Completion of a background revalidation that succeeded
(`revalidateInBackground`, success path): store the fresh data via `set`,
then clear the in-flight marker in the `finally` block. -/
def EnhancedCache.revalidateSuccess (c : EnhancedCache V) (key : String)
    (data : V) (now : Int) : EnhancedCache V :=
  let c1 := c.set key data now
  { c1 with revalidationPromises := c1.revalidationPromises.erase key }

/-- Completion of a background revalidation that failed
(`revalidateInBackground`, catch path): log and rethrow, clearing the
in-flight marker in the `finally` block; the cached entry is untouched. -/
def EnhancedCache.revalidateFailure (c : EnhancedCache V) (key : String) :
    EnhancedCache V :=
  { c with revalidationPromises := c.revalidationPromises.erase key }

/-- One externally observable operation on an `EnhancedCache`. -/
inductive CacheOp (V : Type)
  | getOp (key : String) (now : Int) (fetched : Except JsError V)
  | setOp (key : String) (data : V) (now : Int)
  | revalidateOk (key : String) (data : V) (now : Int)
  | revalidateErr (key : String)

/-- Apply one operation to an `EnhancedCache`. -/
def EnhancedCache.applyOp (c : EnhancedCache V) : CacheOp V → EnhancedCache V
  | .getOp key now fetched => (c.get key now fetched).2
  | .setOp key data now => c.set key data now
  | .revalidateOk key data now => c.revalidateSuccess key data now
  | .revalidateErr key => c.revalidateFailure key

/-- Apply a sequence of operations to an `EnhancedCache`. -/
def EnhancedCache.applyOps (c : EnhancedCache V) (ops : List (CacheOp V)) :
    EnhancedCache V :=
  ops.foldl EnhancedCache.applyOp c

/-- The key an operation addresses. -/
def CacheOp.key : CacheOp V → String
  | .getOp k _ _ => k
  | .setOp k _ _ => k
  | .revalidateOk k _ _ => k
  | .revalidateErr k => k

/-! ### `MemoryCache` (`src/lib/nba-schedule.ts`) -/

/-- `CacheOptions` from `src/lib/nba-schedule.ts` (`maxSize` is read only
by the constructor, never by `get`/`set`). -/
structure CacheOptions where
  ttl : Int
  staleWhileRevalidate : Option Int
  deriving Repr

/-- The `CacheEntry` record stored by `MemoryCache`: TTL and stale window
are frozen into the entry at `set` time, and `refreshPromise` marks an
in-flight background refresh. -/
structure MEntry (V : Type) where
  data : V
  timestamp : Int
  ttl : Int
  staleWhileRevalidate : Option Int
  refreshPromise : Bool
  deriving DecidableEq, Repr

/-- The state of a `MemoryCache` instance: the entry map, the LRU
bookkeeping map `accessOrder` (key → access stamp), and the monotone
`accessCounter`. -/
structure MemoryCache (V : Type) where
  cache : JsMap (MEntry V)
  accessOrder : JsMap Nat
  accessCounter : Nat
  maxSize : Nat
  deriving Repr

/-- `new MemoryCache(maxSize)`. -/
def MemoryCache.empty (maxSize : Nat) : MemoryCache V :=
  { cache := [], accessOrder := [], accessCounter := 0, maxSize := maxSize }

/-- The `for (const [key, accessTime] of this.accessOrder)` minimum scan
in `MemoryCache.evictLRU`: the first entry carrying the smallest access
stamp. -/
def findOldest : JsMap Nat → Option (String × Nat)
  | [] => none
  | kv :: rest =>
      match findOldest rest with
      | none => some kv
      | some best => if best.2 < kv.2 then some best else some kv

theorem findOldest_mem (m : JsMap Nat) (kv : String × Nat)
    (h : findOldest m = some kv) : kv ∈ m := by
  induction m generalizing kv with
  | nil => simp [findOldest] at h
  | cons kv0 rest ih =>
      cases hr : findOldest rest with
      | none =>
          rw [findOldest, hr] at h
          have h2 : some kv0 = some kv := h
          simp only [Option.some_inj] at h2
          rw [← h2]
          exact List.mem_cons_self kv0 rest
      | some best =>
          rw [findOldest, hr] at h
          have h2 : (if best.2 < kv0.2 then some best else some kv0)
              = some kv := h
          by_cases hlt : best.2 < kv0.2
          · rw [if_pos hlt] at h2
            simp only [Option.some_inj] at h2
            exact List.mem_cons_of_mem kv0 (h2 ▸ ih best hr)
          · rw [if_neg hlt] at h2
            simp only [Option.some_inj] at h2
            rw [← h2]
            exact List.mem_cons_self kv0 rest

theorem findOldest_isSome (m : JsMap Nat) (h : m ≠ []) :
    (findOldest m).isSome := by
  cases m with
  | nil => exact absurd rfl h
  | cons kv rest =>
      rw [findOldest]
      cases findOldest rest with
      | none => simp
      | some best => by_cases hlt : best.2 < kv.2 <;> simp [hlt]

theorem findOldest_min (m : JsMap Nat) (kv : String × Nat)
    (h : findOldest m = some kv) : ∀ kv' ∈ m, kv.2 ≤ kv'.2 := by
  induction m generalizing kv with
  | nil => simp [findOldest] at h
  | cons kv0 rest ih =>
      intro kv' hkv'
      cases hr : findOldest rest with
      | none =>
          rw [findOldest, hr] at h
          have h2 : some kv0 = some kv := h
          simp only [Option.some_inj] at h2
          have hrest : rest = [] := by
            cases hrest : rest with
            | nil => rfl
            | cons a b =>
                exfalso
                have := findOldest_isSome rest (by rw [hrest]; simp)
                rw [hr] at this
                simp at this
          rcases List.mem_cons.mp hkv' with hh | hh
          · rw [← h2, hh]
          · rw [hrest] at hh
            simp at hh
      | some best =>
          rw [findOldest, hr] at h
          have h2 : (if best.2 < kv0.2 then some best else some kv0)
              = some kv := h
          rcases List.mem_cons.mp hkv' with hh | hh
          · by_cases hlt : best.2 < kv0.2
            · rw [if_pos hlt] at h2
              simp only [Option.some_inj] at h2
              rw [← h2, hh]
              omega
            · rw [if_neg hlt] at h2
              simp only [Option.some_inj] at h2
              rw [← h2, hh]
          · by_cases hlt : best.2 < kv0.2
            · rw [if_pos hlt] at h2
              simp only [Option.some_inj] at h2
              exact h2 ▸ ih best hr kv' hh
            · rw [if_neg hlt] at h2
              simp only [Option.some_inj] at h2
              have := ih best hr kv' hh
              rw [← h2]
              omega

/-- `MemoryCache.evictLRU`: delete the least-recently-accessed entry from
both maps — guarded by `if (oldestKey)`, so an empty cache, or an
empty-string oldest key, evicts nothing. -/
def MemoryCache.evictLRU (c : MemoryCache V) : MemoryCache V :=
  match findOldest c.accessOrder with
  | some kv =>
      if kv.1 = "" then c
      else
        { c with
          cache := JsMap.delete kv.1 c.cache
          accessOrder := JsMap.delete kv.1 c.accessOrder }
  | none => c

/-- `MemoryCache.set`: evict only when the map is full *and* the key is
new, then store the entry and stamp the key's recency. -/
def MemoryCache.set (c : MemoryCache V) (key : String) (data : V)
    (options : CacheOptions) (now : Int) : MemoryCache V :=
  let c1 :=
    if c.maxSize ≤ c.cache.length ∧ (JsMap.find? key c.cache).isNone
    then c.evictLRU else c
  let cnt := c1.accessCounter + 1
  { c1 with
    cache := JsMap.set key
      ⟨data, now, options.ttl, options.staleWhileRevalidate, false⟩ c1.cache
    accessOrder := JsMap.set key cnt c1.accessOrder
    accessCounter := cnt }

/-- The `entry.staleWhileRevalidate ? age > (entry.ttl +
entry.staleWhileRevalidate) : isStale` expiry test of `MemoryCache.get`
(JS truthiness: an absent or zero stale window falls back to `isStale`). -/
def mExpired (entry : MEntry V) (age : Int) : Bool :=
  match entry.staleWhileRevalidate with
  | some s =>
      if s ≠ 0 then decide (entry.ttl + s < age) else decide (entry.ttl < age)
  | none => decide (entry.ttl < age)

/-- `MemoryCache.get` from `src/lib/nba-schedule.ts`. The fetcher outcome
is supplied as `fetched`. Every call first stamps the key's recency. A
missing entry or an expired one (`age > ttl + staleWhileRevalidate`)
fetches synchronously; a fresh one (`age <= ttl`) is returned as is; a
stale one within the window is returned immediately, spawning a
background refresh unless one is already marked in flight. -/
def MemoryCache.get (c : MemoryCache V) (key : String) (now : Int)
    (options : CacheOptions) (fetched : Except JsError V) :
    (Except JsError V × GetKind) × MemoryCache V :=
  let cnt := c.accessCounter + 1
  let c0 := { c with accessOrder := JsMap.set key cnt c.accessOrder
                     accessCounter := cnt }
  match JsMap.find? key c.cache with
  | none =>
      match fetched with
      | .ok v => ((.ok v, .missOk), c0.set key v options now)
      | .error e => ((.error e, .missErr), c0)
  | some entry =>
      let age := now - entry.timestamp
      if ¬ entry.ttl < age then
        ((.ok entry.data, .fresh), c0)
      else if mExpired entry age then
        match fetched with
        | .ok v => ((.ok v, .missOk), c0.set key v options now)
        | .error e => ((.error e, .missErr), c0)
      else
        if entry.refreshPromise then
          ((.ok entry.data, .staleHit false), c0)
        else
          ((.ok entry.data, .staleHit true),
            { c0 with cache :=
                JsMap.set key { entry with refreshPromise := true } c0.cache })

/-- One externally observable `get`/`set` operation on a `MemoryCache`. -/
inductive MCacheOp (V : Type)
  | getOp (key : String) (now : Int) (options : CacheOptions)
      (fetched : Except JsError V)
  | setOp (key : String) (data : V) (options : CacheOptions) (now : Int)

/-- Apply one operation to a `MemoryCache`. -/
def MemoryCache.applyOp (c : MemoryCache V) : MCacheOp V → MemoryCache V
  | .getOp key now options fetched => (c.get key now options fetched).2
  | .setOp key data options now => c.set key data options now

/-- Apply a sequence of operations to a `MemoryCache`. -/
def MemoryCache.applyOps (c : MemoryCache V) (ops : List (MCacheOp V)) :
    MemoryCache V :=
  ops.foldl MemoryCache.applyOp c

/-! ### Delay reconciliation (`src/lib/error-handling.ts`) -/

/-- The `arrival` / `departure` sub-record of a `StopTimeUpdate`. -/
structure StopTimeEvent where
  delay : Int
  time : Int
  deriving DecidableEq, Repr

/-- `StopTimeUpdate` from `src/lib/error-handling.ts`. -/
structure StopTimeUpdate where
  stopId : String
  stopSequence : Nat
  arrival : Option StopTimeEvent
  departure : Option StopTimeEvent
  scheduleRelationship : Option String
  deriving DecidableEq, Repr

/-- `TripUpdate` from `src/lib/error-handling.ts`. -/
structure TripUpdate where
  tripId : String
  routeId : String
  startDate : String
  startTime : String
  stopTimeUpdates : List StopTimeUpdate
  deriving DecidableEq, Repr

/-- Status component of the delay records returned by `getStopDelay` /
`getTripDelay` (the string union `'on-time' | 'delayed' | 'cancelled'`). -/
inductive DelayStatus
  | onTime
  | delayed
  | cancelled
  deriving DecidableEq, Repr

/-- The `{ delay, status }` record returned by `getStopDelay` /
`getTripDelay`; `delay` is in whole minutes. -/
structure DelayInfo where
  delay : Int
  status : DelayStatus
  deriving DecidableEq, Repr

/-- `stu.scheduleRelationship === 'SKIPPED' ||
stu.scheduleRelationship === 'CANCELED'`. -/
def isCancelledRel (rel : Option String) : Bool :=
  rel == some "SKIPPED" || rel == some "CANCELED"

/-- The effective stop delay `stu.departure?.delay || stu.arrival?.delay
|| 0` under JavaScript `||` semantics: a missing *or zero* departure delay
falls through to the arrival delay, and a missing or zero arrival delay
falls through to `0`. -/
def effDelay (stu : StopTimeUpdate) : Int :=
  match stu.departure with
  | some d =>
      if d.delay ≠ 0 then d.delay
      else
        match stu.arrival with
        | some a => if a.delay ≠ 0 then a.delay else 0
        | none => 0
  | none =>
      match stu.arrival with
      | some a => if a.delay ≠ 0 then a.delay else 0
      | none => 0

/-- `Math.round(delaySeconds / 60)`: JavaScript rounds half toward
positive infinity, so this is `⌊(s + 30) / 60⌋`. -/
def jsRoundDiv60 (s : Int) : Int := Int.fdiv (s + 30) 60

/-- The status classification shared by `getStopDelay` and
`getTripDelay`: `cancelled` dominates, else `delayed` when
`Math.abs(delayMinutes) >= 1`, else `on-time`. -/
def classifyStatus (cancelled : Bool) (delayMinutes : Int) : DelayStatus :=
  if cancelled then .cancelled
  else if 1 ≤ delayMinutes.natAbs then .delayed
  else .onTime

/-- The `if (tripId && update.tripId !== tripId) continue` filter of
`getStopDelay`: an update is skipped only when a *truthy* (non-empty)
`tripId` was supplied and differs from the update's. -/
def tripFilterBlocks (tripId : Option String) (u : TripUpdate) : Bool :=
  match tripId with
  | some t => decide (t ≠ "") && decide (u.tripId ≠ t)
  | none => false

/-- The nested scan of `getStopDelay`: walk the updates in order, skip
those blocked by the trip filter, and return the first stop-time update
matching `stopId`. -/
def findStopUpdate (updates : List TripUpdate) (stopId : String)
    (tripId : Option String) : Option StopTimeUpdate :=
  match updates with
  | [] => none
  | u :: rest =>
      if tripFilterBlocks tripId u then findStopUpdate rest stopId tripId
      else
        match u.stopTimeUpdates.find? (fun stu => stu.stopId == stopId) with
        | some stu => some stu
        | none => findStopUpdate rest stopId tripId

/-- `getStopDelay` from `src/lib/error-handling.ts`. -/
def getStopDelay (updates : List TripUpdate) (stopId : String)
    (tripId : Option String) : Option DelayInfo :=
  match findStopUpdate updates stopId tripId with
  | none => none
  | some stu =>
      let delayMinutes := jsRoundDiv60 (effDelay stu)
      some ⟨delayMinutes,
        classifyStatus (isCancelledRel stu.scheduleRelationship) delayMinutes⟩

/-- Modelled from the spec (for comparison only): the delay selection
`departureDelay ?? arrivalDelay ?? 0` that the specification ascribes to
`getStopDelay` — nullish coalescing, under which a *present but zero*
departure delay is kept rather than falling through. -/
def effDelaySpec (stu : StopTimeUpdate) : Int :=
  match stu.departure with
  | some d => d.delay
  | none =>
      match stu.arrival with
      | some a => a.delay
      | none => 0

/-- Modelled from the spec (for comparison only): `getStopDelay` as the
specification words it, i.e. with `?? `-semantics for the delay pick;
identical to `getStopDelay` in every other respect. -/
def getStopDelaySpec (updates : List TripUpdate) (stopId : String)
    (tripId : Option String) : Option DelayInfo :=
  match findStopUpdate updates stopId tripId with
  | none => none
  | some stu =>
      let delayMinutes := jsRoundDiv60 (effDelaySpec stu)
      some ⟨delayMinutes,
        classifyStatus (isCancelledRel stu.scheduleRelationship) delayMinutes⟩

/-- The stop scan of `getTripDelay`: accumulate the maximum-magnitude
signed delay, breaking at the first `SKIPPED`/`CANCELED` stop. Returns
the accumulator and the cancellation flag. -/
def scanStops (acc : Int) : List StopTimeUpdate → Int × Bool
  | [] => (acc, false)
  | stu :: rest =>
      if isCancelledRel stu.scheduleRelationship then (acc, true)
      else
        let d := effDelay stu
        scanStops (if acc.natAbs < d.natAbs then d else acc) rest

/-- `getTripDelay` from `src/lib/error-handling.ts`. -/
def getTripDelay (updates : List TripUpdate) (tripId : String) :
    Option DelayInfo :=
  match updates.find? (fun u => u.tripId == tripId) with
  | none => none
  | some u =>
      if u.stopTimeUpdates.isEmpty then none
      else
        let scanned := scanStops 0 u.stopTimeUpdates
        let delayMinutes := jsRoundDiv60 scanned.1
        some ⟨delayMinutes, classifyStatus scanned.2 delayMinutes⟩

/-! ### Composition: `executeWithCircuitBreaker` (`src/lib/utils.ts`) -/

/-- `executeWithCircuitBreaker` from `src/lib/utils.ts`:
`circuitBreaker.execute(() => retryWithBackoff(operation, ...))` — the
retry loop runs *inside* the breaker, so a breaker rejection produces an
empty retry trace (the wrapped operation is never invoked). -/
def executeWithCircuitBreaker (b : CircuitBreaker)
    (bcfg : CircuitBreakerConfig) (rcfg : RetryConfig)
    (op : Nat → Except JsError V) (now : Int) :
    ExecOutcome V × CircuitBreaker × List RetryEvent :=
  if b.state = .opened ∧ ¬ bcfg.resetTimeoutMs < now - b.lastFailureTime then
    (.rejected, b, [])
  else
    let b1 :=
      if b.state = .opened then { b with state := .halfOpen, successCount := 0 }
      else b
    let r := retryWithBackoff op rcfg
    match r.1 with
    | .ok v => (.value v, b1.onSuccess, r.2)
    | .error e => (.failure e, b1.onFailure bcfg now, r.2)

/-! ## Helper lemmas -/

theorem retryLoop_trace_ne_nil (op : Nat → Except JsError V)
    (cfg : RetryConfig) (attempt : Nat) :
    ∀ remaining, (retryLoop op cfg attempt remaining).2 ≠ [] := by
  intro remaining
  cases remaining with
  | zero => cases h : op attempt <;> simp [retryLoop, h]
  | succ r =>
      cases h : op attempt with
      | ok v => simp [retryLoop, h]
      | error e =>
          by_cases hr : isRetryableError e cfg = true
          · simp [retryLoop, h, hr]
          · simp [retryLoop, h, hr]

theorem invocationCount_invoke_cons (a : Nat) (evs : List RetryEvent) :
    invocationCount (.invoke a :: evs) = invocationCount evs + 1 := by
  simp [invocationCount, List.filter_cons]

theorem invocationCount_sleep_cons (a : Nat) (evs : List RetryEvent) :
    invocationCount (.sleep a :: evs) = invocationCount evs := by
  simp [invocationCount, List.filter_cons]

/-- When every attempt fails with a retryable error, the retry loop
invokes the operation once per allowed attempt, surfaces the final
attempt's error, and ends its trace on the final invocation. -/
theorem retryLoop_all_fail (op : Nat → Except JsError V) (cfg : RetryConfig)
    (err : Nat → JsError)
    (hop : ∀ n, op n = .error (err n))
    (hretry : ∀ n, isRetryableError (err n) cfg = true) :
    ∀ remaining attempt,
      (retryLoop op cfg attempt remaining).1
          = .error (err (attempt + remaining)) ∧
      invocationCount (retryLoop op cfg attempt remaining).2 = remaining + 1 ∧
      (retryLoop op cfg attempt remaining).2.getLast?
          = some (.invoke (attempt + remaining)) := by
  intro remaining
  induction remaining with
  | zero =>
      intro attempt
      simp [retryLoop, hop attempt, invocationCount]
  | succ r ih =>
      intro attempt
      have hnext := ih (attempt + 1)
      have hne := retryLoop_trace_ne_nil op cfg (attempt + 1) r
      obtain ⟨c1, c2, c3⟩ := hnext
      have harith : attempt + 1 + r = attempt + (r + 1) := by omega
      rw [harith] at c1 c3
      refine ⟨?_, ?_, ?_⟩
      · simp [retryLoop, hop attempt, hretry attempt, c1]
      · simp only [retryLoop, hop attempt, hretry attempt, if_true]
        rw [invocationCount_invoke_cons, invocationCount_sleep_cons, c2]
      · simp only [retryLoop, hop attempt, hretry attempt, if_true]
        obtain ⟨h0, t0, ht⟩ : ∃ h0 t0,
            (retryLoop op cfg (attempt + 1) r).2 = h0 :: t0 := by
          cases hl : (retryLoop op cfg (attempt + 1) r).2 with
          | nil => exact absurd hl hne
          | cons h0 t0 => exact ⟨h0, t0, rfl⟩
        rw [ht]
        rw [ht] at c3
        rw [List.getLast?_cons_cons, List.getLast?_cons_cons]
        exact c3

/-- When the first `k` attempts fail retryably and attempt `k` fails with
a non-retryable error, the loop stops at attempt `k`: `k + 1`
invocations, the trace ends on that invocation (no sleep after it), and
that exact error is surfaced. -/
theorem retryLoop_short_circuit (op : Nat → Except JsError V)
    (cfg : RetryConfig) (e : JsError) :
    ∀ (k remaining attempt : Nat), k < remaining →
      (∀ i, i < k → ∃ ei, op (attempt + i) = .error ei ∧
          isRetryableError ei cfg = true) →
      op (attempt + k) = .error e →
      isRetryableError e cfg = false →
      (retryLoop op cfg attempt remaining).1 = .error e ∧
      invocationCount (retryLoop op cfg attempt remaining).2 = k + 1 ∧
      (retryLoop op cfg attempt remaining).2.getLast?
          = some (.invoke (attempt + k)) := by
  intro k
  induction k with
  | zero =>
      intro remaining attempt hlt hfail hke hnr
      obtain ⟨r, rfl⟩ : ∃ r, remaining = r + 1 := ⟨remaining - 1, by omega⟩
      simp only [Nat.add_zero] at hke
      simp [retryLoop, hke, hnr, invocationCount]
  | succ k ih =>
      intro remaining attempt hlt hfail hke hnr
      obtain ⟨r, rfl⟩ : ∃ r, remaining = r + 1 := ⟨remaining - 1, by omega⟩
      obtain ⟨e0, he0, hr0⟩ := hfail 0 (Nat.succ_pos k)
      simp only [Nat.add_zero] at he0
      have hke' : op (attempt + 1 + k) = .error e := by
        rw [show attempt + 1 + k = attempt + (k + 1) by omega]; exact hke
      have hfail' : ∀ i, i < k → ∃ ei, op (attempt + 1 + i) = .error ei ∧
          isRetryableError ei cfg = true := by
        intro i hi
        have := hfail (i + 1) (by omega)
        rwa [show attempt + (i + 1) = attempt + 1 + i by omega] at this
      have := ih r (attempt + 1) (by omega) hfail' hke' hnr
      obtain ⟨c1, c2, c3⟩ := this
      have hne := retryLoop_trace_ne_nil op cfg (attempt + 1) r
      refine ⟨?_, ?_, ?_⟩
      · simp [retryLoop, he0, hr0, c1]
      · simp only [retryLoop, he0, hr0, if_true]
        rw [invocationCount_invoke_cons, invocationCount_sleep_cons, c2]
      · simp only [retryLoop, he0, hr0, if_true]
        obtain ⟨h0, t0, ht⟩ : ∃ h0 t0,
            (retryLoop op cfg (attempt + 1) r).2 = h0 :: t0 := by
          cases hl : (retryLoop op cfg (attempt + 1) r).2 with
          | nil => exact absurd hl hne
          | cons h0 t0 => exact ⟨h0, t0, rfl⟩
        rw [ht]
        rw [ht] at c3
        rw [List.getLast?_cons_cons, List.getLast?_cons_cons]
        rw [c3]
        rw [show attempt + 1 + k = attempt + (k + 1) by omega]

/-! ## Claims -/

/-- **C4.** For every retry configuration and every operation that fails
on each attempt with a retryable error, `retryWithBackoff` invokes the
operation exactly `maxRetries + 1` times, its event trace ends with the
final invocation (so no sleep follows the final attempt), and the
surfaced error is exactly the final attempt's error, not a synthetic
retries-exhausted error. -/
theorem retryWithBackoff_exhausts_and_surfaces_final_error
    (op : Nat → Except JsError V) (cfg : RetryConfig) (err : Nat → JsError)
    (hop : ∀ n, op n = .error (err n))
    (hretry : ∀ n, isRetryableError (err n) cfg = true) :
    (retryWithBackoff op cfg).1 = .error (err cfg.maxRetries) ∧
    invocationCount (retryWithBackoff op cfg).2 = cfg.maxRetries + 1 ∧
    (retryWithBackoff op cfg).2.getLast? = some (.invoke cfg.maxRetries) := by
  have := retryLoop_all_fail op cfg err hop hretry cfg.maxRetries 0
  simpa [retryWithBackoff] using this

/-- Witness for C4: with `maxRetries = 3` and an operation failing with
HTTP 503 on every attempt, there are exactly 4 invocations and the 503
error of the final attempt is surfaced. -/
theorem retryWithBackoff_exhausts_witness :
    (retryWithBackoff (fun _ => (.error ⟨some 503, "HTTP 503: Service Unavailable"⟩ :
        Except JsError Unit)) DEFAULT_RETRY_CONFIG).1
      = .error ⟨some 503, "HTTP 503: Service Unavailable"⟩ ∧
    invocationCount (retryWithBackoff
        (fun _ => (.error ⟨some 503, "HTTP 503: Service Unavailable"⟩ :
          Except JsError Unit)) DEFAULT_RETRY_CONFIG).2 = 4 ∧
    (retryWithBackoff (fun _ => (.error ⟨some 503, "HTTP 503: Service Unavailable"⟩ :
        Except JsError Unit)) DEFAULT_RETRY_CONFIG).2.getLast?
      = some (.invoke 3) :=
  retryWithBackoff_exhausts_and_surfaces_final_error
    (V := Unit) (fun _ => .error ⟨some 503, "HTTP 503: Service Unavailable"⟩)
    DEFAULT_RETRY_CONFIG (fun _ => ⟨some 503, "HTTP 503: Service Unavailable"⟩)
    (fun _ => rfl)
    (fun _ => show isRetryableError ⟨some 503, "HTTP 503: Service Unavailable"⟩
      DEFAULT_RETRY_CONFIG = true by decide)

/-- **C5.** A non-retryable failure before the last attempt is propagated
immediately: with attempts `0..k-1` failing retryably and attempt
`k < maxRetries` failing with a non-retryable error, `retryWithBackoff`
performs exactly `k + 1` invocations, its trace ends on that invocation
(no backoff sleep after it), and that exact error is surfaced. Moreover
(under the default configuration) a 4xx HTTP status error other than 429
is classified non-retryable, the `Circuit breaker ... is OPEN` rejection
message is classified non-retryable, and in the composed
`executeWithCircuitBreaker` a breaker rejection produces an empty retry
trace — the retry policy never sees, and never retries, a circuit-open
rejection. -/
theorem nonRetryable_short_circuits
    (op : Nat → Except JsError V) (cfg : RetryConfig) (k : Nat) (e : JsError)
    (hk : k < cfg.maxRetries)
    (hfail : ∀ i, i < k → ∃ ei, op i = .error ei ∧
        isRetryableError ei cfg = true)
    (hke : op k = .error e)
    (hnr : isRetryableError e cfg = false) :
    ((retryWithBackoff op cfg).1 = .error e ∧
      invocationCount (retryWithBackoff op cfg).2 = k + 1 ∧
      (retryWithBackoff op cfg).2.getLast? = some (.invoke k)) ∧
    (∀ s : Int, ∀ msg : String, 400 ≤ s → s < 500 → s ≠ 429 →
      isRetryableError ⟨some s, msg⟩ DEFAULT_RETRY_CONFIG = false) ∧
    isRetryableError ⟨none, "Circuit breaker api is OPEN"⟩
        DEFAULT_RETRY_CONFIG = false ∧
    (∀ (b : CircuitBreaker) (bcfg : CircuitBreakerConfig) (rcfg : RetryConfig)
        (op2 : Nat → Except JsError V) (now : Int),
      b.state = .opened → now - b.lastFailureTime ≤ bcfg.resetTimeoutMs →
      executeWithCircuitBreaker b bcfg rcfg op2 now
        = (.rejected, b, ([] : List RetryEvent))) := by
  refine ⟨?_, ?_, by decide, ?_⟩
  · have := retryLoop_short_circuit op cfg e k cfg.maxRetries 0 hk
      (by simpa using hfail) (by simpa using hke) hnr
    simpa [retryWithBackoff] using this
  · intro s msg h4 h5 h429
    simp only [isRetryableError, DEFAULT_RETRY_CONFIG, List.contains, List.elem]
    have e1 : (s == 429) = false := by simpa using h429
    have e2 : (s == 502) = false := by simp; omega
    have e3 : (s == 503) = false := by simp; omega
    have e4 : (s == 504) = false := by simp; omega
    simp [e1, e2, e3, e4]
  · intro b bcfg rcfg op2 now hst htime
    have hcond : b.state = .opened ∧
        ¬ bcfg.resetTimeoutMs < now - b.lastFailureTime := ⟨hst, by omega⟩
    unfold executeWithCircuitBreaker
    rw [if_pos hcond]

/-- Witness for C5: with the default configuration, a first attempt
failing with HTTP 503 and a second attempt failing with HTTP 404 stop
the retry loop at 2 invocations and surface the 404 error. -/
theorem nonRetryable_short_circuits_witness :
    ((retryWithBackoff (fun n => if n = 0
        then (.error ⟨some 503, "HTTP 503: Service Unavailable"⟩ : Except JsError Unit)
        else .error ⟨some 404, "HTTP 404: Not Found"⟩) DEFAULT_RETRY_CONFIG).1
        = .error ⟨some 404, "HTTP 404: Not Found"⟩ ∧
      invocationCount (retryWithBackoff (fun n => if n = 0
        then (.error ⟨some 503, "HTTP 503: Service Unavailable"⟩ : Except JsError Unit)
        else .error ⟨some 404, "HTTP 404: Not Found"⟩) DEFAULT_RETRY_CONFIG).2 = 2 ∧
      (retryWithBackoff (fun n => if n = 0
        then (.error ⟨some 503, "HTTP 503: Service Unavailable"⟩ : Except JsError Unit)
        else .error ⟨some 404, "HTTP 404: Not Found"⟩) DEFAULT_RETRY_CONFIG).2.getLast?
        = some (.invoke 1)) ∧
    (∀ s : Int, ∀ msg : String, 400 ≤ s → s < 500 → s ≠ 429 →
      isRetryableError ⟨some s, msg⟩ DEFAULT_RETRY_CONFIG = false) ∧
    isRetryableError ⟨none, "Circuit breaker api is OPEN"⟩
        DEFAULT_RETRY_CONFIG = false ∧
    (∀ (b : CircuitBreaker) (bcfg : CircuitBreakerConfig) (rcfg : RetryConfig)
        (op2 : Nat → Except JsError Unit) (now : Int),
      b.state = .opened → now - b.lastFailureTime ≤ bcfg.resetTimeoutMs →
      executeWithCircuitBreaker b bcfg rcfg op2 now
        = (.rejected, b, ([] : List RetryEvent))) :=
  nonRetryable_short_circuits
    (fun n => if n = 0
      then (.error ⟨some 503, "HTTP 503: Service Unavailable"⟩ : Except JsError Unit)
      else .error ⟨some 404, "HTTP 404: Not Found"⟩)
    DEFAULT_RETRY_CONFIG 1 ⟨some 404, "HTTP 404: Not Found"⟩
    (by decide)
    (fun i hi => ⟨⟨some 503, "HTTP 503: Service Unavailable"⟩, by
      interval_cases i
      exact ⟨rfl, by decide⟩⟩)
    rfl (by decide)

/-- Running a closed breaker through consecutive failures: while the
failure count stays below the threshold the breaker remains closed and
counts them; the failure that reaches the threshold opens it. -/
theorem run_failures_from_closed (cfg : CircuitBreakerConfig) :
    ∀ (fails : List (Int × JsError)) (b : CircuitBreaker),
      b.state = .closed →
      b.failures + fails.length ≤ cfg.failureThreshold →
      (b.failures + fails.length < cfg.failureThreshold →
        (CircuitBreaker.run b cfg
            (fails.map (fun te => (te.1, .error te.2)))).state = .closed ∧
        (CircuitBreaker.run b cfg
            (fails.map (fun te => (te.1, .error te.2)))).failures
          = b.failures + fails.length) ∧
      (b.failures + fails.length = cfg.failureThreshold → fails ≠ [] →
        (CircuitBreaker.run b cfg
            (fails.map (fun te => (te.1, .error te.2)))).state = .opened ∧
        (CircuitBreaker.run b cfg
            (fails.map (fun te => (te.1, .error te.2)))).failures
          = cfg.failureThreshold) := by
  intro fails
  induction fails with
  | nil =>
      intro b hb hle
      refine ⟨fun hlt => ⟨?_, ?_⟩, fun heq hne => absurd rfl hne⟩
      · simpa [CircuitBreaker.run] using hb
      · simp [CircuitBreaker.run]
  | cons te rest ih =>
      intro b hb hle
      have hnotopen : ¬ b.state = .opened := by rw [hb]; intro h; cases h
      have hstep : CircuitBreaker.step cfg b (te.1, .error te.2)
          = (b.onFailure cfg te.1 : CircuitBreaker) := by
        simp [CircuitBreaker.step, CircuitBreaker.execute, hnotopen, hb]
      by_cases hth : cfg.failureThreshold ≤ b.failures + 1
      · -- the threshold is reached by this very failure
        have hlen : rest.length = 0 := by
          simp only [List.length_cons] at hle
          omega
        have hrest : rest = [] := List.length_eq_zero.mp hlen
        subst hrest
        have heq : b.failures + 1 = cfg.failureThreshold := by
          simp only [List.length_cons, List.length_nil] at hle
          omega
        have hopened : (b.onFailure cfg te.1).state = .opened ∧
            (b.onFailure cfg te.1).failures = cfg.failureThreshold := by
          simp [CircuitBreaker.onFailure, hth, heq]
        constructor
        · intro hlt
          simp only [List.length_cons, List.length_nil] at hlt
          omega
        · intro _ _
          simpa [CircuitBreaker.run, hstep] using hopened
      · -- still below the threshold
        have hb' : (b.onFailure cfg te.1).state = .closed ∧
            (b.onFailure cfg te.1).failures = b.failures + 1 := by
          simp [CircuitBreaker.onFailure, hth, hb]
        have hrun : CircuitBreaker.run b cfg
            ((te :: rest).map (fun te => (te.1, .error te.2)))
            = CircuitBreaker.run (b.onFailure cfg te.1) cfg
                (rest.map (fun te => (te.1, .error te.2))) := by
          simp [CircuitBreaker.run, hstep]
        have := ih (b.onFailure cfg te.1) hb'.1
          (by rw [hb'.2]; simp only [List.length_cons] at hle; omega)
        rw [hb'.2] at this
        constructor
        · intro hlt
          rw [hrun]
          have h1 := this.1 (by simp only [List.length_cons] at hlt; omega)
          exact ⟨h1.1, by rw [h1.2]; simp only [List.length_cons]; omega⟩
        · intro heq _
          by_cases hr : rest = []
          · subst hr
            simp only [List.length_cons, List.length_nil] at heq
            omega
          · rw [hrun]
            exact this.2 (by simp only [List.length_cons] at heq; omega) hr

/-- **C2.** The circuit-breaker lifecycle, per the code: (1) from the
initial `CLOSED` state, exactly `failureThreshold` consecutive failures
open the breaker (fewer leave it closed); (2) a call while `OPEN` with
`now - lastFailureTime <= resetTimeoutMs` is rejected without consulting
the operation's outcome and leaves the breaker unchanged; (3) once
`now - lastFailureTime > resetTimeoutMs` the next call runs in
`HALF_OPEN`; (4) three consecutive successes from a fresh `HALF_OPEN`
state close the breaker with the failure counter cleared — but, contrary
to the claim's "all counters reset", `successCount` keeps the value 3
until the next `OPEN → HALF_OPEN` transition resets it. -/
theorem circuitBreaker_lifecycle (cfg : CircuitBreakerConfig)
    (hthr : 1 ≤ cfg.failureThreshold) :
    (∀ fails : List (Int × JsError), fails.length = cfg.failureThreshold →
      (CircuitBreaker.run .init cfg
          (fails.map (fun te => (te.1, .error te.2)))).state = .opened) ∧
    (∀ fails : List (Int × JsError), fails.length < cfg.failureThreshold →
      (CircuitBreaker.run .init cfg
          (fails.map (fun te => (te.1, .error te.2)))).state = .closed) ∧
    (∀ (b : CircuitBreaker) (now : Int) (r1 r2 : Except JsError Unit),
      b.state = .opened → now - b.lastFailureTime ≤ cfg.resetTimeoutMs →
      b.execute cfg now r1 = (.rejected, b) ∧
      b.execute cfg now r1 = b.execute cfg now r2) ∧
    (∀ (b : CircuitBreaker) (now : Int),
      b.state = .opened → cfg.resetTimeoutMs < now - b.lastFailureTime →
      (b.execute cfg now (.ok () : Except JsError Unit)).1 = .value () ∧
      ((b.execute cfg now (.ok () : Except JsError Unit)).2.state = .halfOpen ∧
        (b.execute cfg now (.ok () : Except JsError Unit)).2.successCount = 1 ∧
        (b.execute cfg now (.ok () : Except JsError Unit)).2.failures = 0)) ∧
    (∀ (b : CircuitBreaker) (t1 t2 t3 : Int),
      b.state = .halfOpen → b.successCount = 0 →
      (CircuitBreaker.run b cfg [(t1, .ok ()), (t2, .ok ()), (t3, .ok ())]).state
          = .closed ∧
      (CircuitBreaker.run b cfg [(t1, .ok ()), (t2, .ok ()), (t3, .ok ())]).failures
          = 0 ∧
      (CircuitBreaker.run b cfg [(t1, .ok ()), (t2, .ok ()), (t3, .ok ())]).successCount
          = 3) := by
  refine ⟨?_, ?_, ?_, ?_, ?_⟩
  · intro fails hlen
    have := run_failures_from_closed cfg fails .init rfl
      (by simp [CircuitBreaker.init, hlen])
    have hne : fails ≠ [] := by
      intro h
      rw [h] at hlen
      simp only [List.length_nil] at hlen
      omega
    exact (this.2 (by simp [CircuitBreaker.init, hlen]) hne).1
  · intro fails hlen
    have := run_failures_from_closed cfg fails .init rfl
      (by simp [CircuitBreaker.init]; omega)
    exact (this.1 (by simpa [CircuitBreaker.init] using hlen)).1
  · intro b now r1 r2 hb htime
    have hcond : b.state = .opened ∧
        ¬ cfg.resetTimeoutMs < now - b.lastFailureTime := ⟨hb, by omega⟩
    constructor
    · simp [CircuitBreaker.execute, hcond]
    · simp [CircuitBreaker.execute, hcond]
  · intro b now hb htime
    have hcond : ¬ (b.state = .opened ∧
        ¬ cfg.resetTimeoutMs < now - b.lastFailureTime) := by
      intro h
      exact h.2 htime
    have harith : ¬ now ≤ cfg.resetTimeoutMs + b.lastFailureTime := by omega
    simp [CircuitBreaker.execute, hcond, hb, CircuitBreaker.onSuccess, harith]
  · intro b t1 t2 t3 hb hsc
    have hnotopen : ¬ b.state = .opened := by rw [hb]; intro h; cases h
    simp [CircuitBreaker.run, CircuitBreaker.step, CircuitBreaker.execute,
      hnotopen, hb, CircuitBreaker.onSuccess, hsc]

/-- Counterexample for C2 as stated: after a breaker (threshold 1, reset
timeout 10) opens, recovers through half-open, and closes via 3
successes, the half-open success counter still reads 3 — the counters are
not all reset at the moment of closing. -/
theorem circuitBreaker_close_keeps_successCount :
    (CircuitBreaker.run .init ⟨1, 10⟩
        [(0, .error ⟨none, "boom"⟩), (20, .ok ()), (21, .ok ()), (22, .ok ())]).state
      = .closed ∧
    ¬ (CircuitBreaker.run .init ⟨1, 10⟩
        [(0, .error ⟨none, "boom"⟩), (20, .ok ()), (21, .ok ()), (22, .ok ())]).successCount
      = 0 := by decide

/-- Witness for C2: the lifecycle theorem instantiated at the default
configuration (threshold 5): five failures at times 0..4 open the
breaker, a call at time 100 (within the 60000ms reset timeout of the
last failure at time 4) is rejected unchanged, a call at time 70000 runs
half-open, and three successes from a fresh half-open state close it. -/
theorem circuitBreaker_lifecycle_witness :
    (CircuitBreaker.run .init ⟨5, 60000⟩
        ([(0, ⟨none, "boom"⟩), (1, ⟨none, "boom"⟩), (2, ⟨none, "boom"⟩),
          (3, ⟨none, "boom"⟩), (4, ⟨none, "boom"⟩)].map
            (fun te => (te.1, .error te.2)))).state = .opened ∧
    (CircuitBreaker.run ⟨.halfOpen, 0, 5, 0⟩ ⟨5, 60000⟩
        [(10, .ok ()), (11, .ok ()), (12, .ok ())]).state = .closed := by
  constructor
  · exact (circuitBreaker_lifecycle ⟨5, 60000⟩ (by decide)).1
      [(0, ⟨none, "boom"⟩), (1, ⟨none, "boom"⟩), (2, ⟨none, "boom"⟩),
        (3, ⟨none, "boom"⟩), (4, ⟨none, "boom"⟩)] (by decide)
  · exact ((circuitBreaker_lifecycle ⟨5, 60000⟩ (by decide)).2.2.2.2
      ⟨.halfOpen, 0, 5, 0⟩ 10 11 12 rfl rfl).1

/-- **C3 (amended).** A failing call in `HALF_OPEN` always surfaces the
failure and stamps `lastFailureTime = now`, but transitions back to
`OPEN` only when the incremented failure counter reaches
`failureThreshold`; otherwise the breaker stays `HALF_OPEN`. (The first
trial failure with no intervening success does reopen the breaker,
because the failure count from the opening episode is retained; a
failure after a half-open trial success does not, because each success
resets the counter to 0.) -/
theorem halfOpen_failure_behavior (b : CircuitBreaker)
    (cfg : CircuitBreakerConfig) (now : Int) (e : JsError)
    (hb : b.state = .halfOpen) :
    (b.execute cfg now (.error e : Except JsError Unit)).1 = .failure e ∧
    (b.execute cfg now (.error e : Except JsError Unit)).2.lastFailureTime = now ∧
    ((b.execute cfg now (.error e : Except JsError Unit)).2.state = .opened
      ↔ cfg.failureThreshold ≤ b.failures + 1) ∧
    ((b.execute cfg now (.error e : Except JsError Unit)).2.state = .halfOpen
      ↔ b.failures + 1 < cfg.failureThreshold) := by
  have hnotopen : ¬ b.state = .opened := by rw [hb]; intro h; cases h
  by_cases hth : cfg.failureThreshold ≤ b.failures + 1
  · simp [CircuitBreaker.execute, hnotopen, hb, CircuitBreaker.onFailure, hth]
  · simp [CircuitBreaker.execute, hnotopen, hb, CircuitBreaker.onFailure, hth]
    omega

/-- Counterexample for C3 as stated: with threshold 2, two failures open
the breaker; a successful trial at time 20 puts it in `HALF_OPEN` (and
resets the failure counter); the next failing call leaves it `HALF_OPEN`
— it does not transition back to `OPEN` as the claim requires. -/
theorem halfOpen_failure_counterexample :
    (CircuitBreaker.run .init ⟨2, 10⟩
        [(0, .error ⟨none, "boom"⟩), (1, .error ⟨none, "boom"⟩),
          (20, .ok ())]).state = .halfOpen ∧
    ¬ (CircuitBreaker.run .init ⟨2, 10⟩
        [(0, .error ⟨none, "boom"⟩), (1, .error ⟨none, "boom"⟩),
          (20, .ok ()), (21, .error ⟨none, "boom"⟩)]).state = .opened ∧
    (CircuitBreaker.run .init ⟨2, 10⟩
        [(0, .error ⟨none, "boom"⟩), (1, .error ⟨none, "boom"⟩),
          (20, .ok ()), (21, .error ⟨none, "boom"⟩)]).state = .halfOpen := by
  refine ⟨by decide, by decide, by decide⟩

/-- Witness for C3 (amended): a breaker sitting `HALF_OPEN` with 0
failures under threshold 2 stays `HALF_OPEN` after one failure, with
`lastFailureTime` stamped. -/
theorem halfOpen_failure_behavior_witness :
    (CircuitBreaker.execute ⟨.halfOpen, 0, 0, 1⟩ ⟨2, 10⟩ 42
        (.error ⟨none, "boom"⟩ : Except JsError Unit)).1
      = .failure ⟨none, "boom"⟩ ∧
    (CircuitBreaker.execute ⟨.halfOpen, 0, 0, 1⟩ ⟨2, 10⟩ 42
        (.error ⟨none, "boom"⟩ : Except JsError Unit)).2.lastFailureTime = 42 ∧
    (CircuitBreaker.execute ⟨.halfOpen, 0, 0, 1⟩ ⟨2, 10⟩ 42
        (.error ⟨none, "boom"⟩ : Except JsError Unit)).2.state = .halfOpen := by
  have h := halfOpen_failure_behavior ⟨.halfOpen, 0, 0, 1⟩ ⟨2, 10⟩ 42
    ⟨none, "boom"⟩ rfl
  exact ⟨h.1, h.2.1, h.2.2.2.mpr (by decide)⟩

/-- The cancellation flag produced by the stop scan is exactly "some stop
is `SKIPPED`/`CANCELED`". -/
theorem scanStops_cancelled_iff (l : List StopTimeUpdate) :
    ∀ acc, (scanStops acc l).2
      = l.any (fun stu => isCancelledRel stu.scheduleRelationship) := by
  induction l with
  | nil => intro acc; simp [scanStops]
  | cons stu rest ih =>
      intro acc
      by_cases hc : isCancelledRel stu.scheduleRelationship = true
      · simp [scanStops, hc]
      · simp only [Bool.not_eq_true] at hc
        simp [scanStops, hc, ih]

/-- The scan stops at the first cancelled stop: whatever follows it does
not affect the result. -/
theorem scanStops_stops_at_cancel (pre : List StopTimeUpdate)
    (stu : StopTimeUpdate) (hc : isCancelledRel stu.scheduleRelationship = true) :
    ∀ (post post' : List StopTimeUpdate) (acc : Int),
      (∀ s ∈ pre, isCancelledRel s.scheduleRelationship = false) →
      scanStops acc (pre ++ stu :: post) = scanStops acc (pre ++ stu :: post') := by
  induction pre with
  | nil => intro post post' acc _; simp [scanStops, hc]
  | cons p rest ih =>
      intro post post' acc hnc
      have hp : isCancelledRel p.scheduleRelationship = false :=
        hnc p (List.mem_cons_self p rest)
      simp only [List.cons_append, scanStops, hp, Bool.false_eq_true, if_false]
      exact ih post post' _ (fun s hs => hnc s (List.mem_cons_of_mem p hs))

/-- On a cancellation-free stop list, the scan never reports a
cancellation, and its accumulator is a maximum-magnitude value: at least
as large in magnitude as the start accumulator and every stop's effective
delay, and equal to one of them. -/
theorem scanStops_no_cancel (l : List StopTimeUpdate)
    (hnc : ∀ stu ∈ l, isCancelledRel stu.scheduleRelationship = false) :
    ∀ acc : Int,
      (scanStops acc l).2 = false ∧
      ((scanStops acc l).1 = acc ∨ (scanStops acc l).1 ∈ l.map effDelay) ∧
      acc.natAbs ≤ (scanStops acc l).1.natAbs ∧
      ∀ stu ∈ l, (effDelay stu).natAbs ≤ (scanStops acc l).1.natAbs := by
  induction l with
  | nil =>
      intro acc
      refine ⟨rfl, Or.inl rfl, le_refl _, ?_⟩
      intro stu hstu
      simp at hstu
  | cons stu rest ih =>
      intro acc
      have hstu : isCancelledRel stu.scheduleRelationship = false :=
        hnc stu (List.mem_cons_self stu rest)
      have hrest : ∀ s ∈ rest, isCancelledRel s.scheduleRelationship = false :=
        fun s hs => hnc s (List.mem_cons_of_mem stu hs)
      set acc1 : Int :=
        if acc.natAbs < (effDelay stu).natAbs then effDelay stu else acc with hacc1
      have hscan : scanStops acc (stu :: rest) = scanStops acc1 rest := by
        simp [scanStops, hstu, hacc1]
      obtain ⟨i1, i2, i3, i4⟩ := ih hrest acc1
      have hacc_le : acc.natAbs ≤ acc1.natAbs := by
        rw [hacc1]
        by_cases h : acc.natAbs < (effDelay stu).natAbs
        · rw [if_pos h]; omega
        · rw [if_neg h]
      have hstu_le : (effDelay stu).natAbs ≤ acc1.natAbs := by
        rw [hacc1]
        by_cases h : acc.natAbs < (effDelay stu).natAbs
        · rw [if_pos h]
        · rw [if_neg h]; omega
      refine ⟨by rw [hscan]; exact i1, ?_, ?_, ?_⟩
      · rw [hscan]
        rcases i2 with h | h
        · rw [h, hacc1]
          by_cases hlt : acc.natAbs < (effDelay stu).natAbs
          · rw [if_pos hlt]
            exact Or.inr (by simp)
          · rw [if_neg hlt]
            exact Or.inl rfl
        · exact Or.inr (by simp [h])
      · rw [hscan]
        exact le_trans hacc_le i3
      · rw [hscan]
        intro s hs
        rcases List.mem_cons.mp hs with h | h
        · rw [h]; exact le_trans hstu_le i3
        · exact i4 s h

/-- **C6.** `getTripDelay` scans the first update matching `tripId`:
(a) a `SKIPPED`/`CANCELED` stop makes the whole trip `cancelled`
regardless of the numeric delays, and (b) the scan stops at that stop —
updates past the first cancelled stop cannot affect the result;
(c) with no cancelled stop the returned delay is the minute-rounding of
a maximum-magnitude signed stop delay (an actual stop's effective delay
dominating every other in magnitude — not the last stop, not the
average), classified `delayed` iff its magnitude is at least one minute;
(d) a matched trip with an empty stop list yields `null`; (e) an
unmatched `tripId` yields `null`; and (f) concretely, stop delays
`[0, 300, -60]` with no cancellations yield `delay = 5, delayed`. -/
theorem getTripDelay_spec (updates : List TripUpdate) (tid : String) :
    (∀ u, updates.find? (fun u => u.tripId == tid) = some u →
      (∃ stu ∈ u.stopTimeUpdates,
        isCancelledRel stu.scheduleRelationship = true) →
      ∃ m, getTripDelay updates tid = some ⟨m, .cancelled⟩) ∧
    (∀ (pre post post' : List StopTimeUpdate) (stu : StopTimeUpdate) (acc : Int),
      isCancelledRel stu.scheduleRelationship = true →
      (∀ s ∈ pre, isCancelledRel s.scheduleRelationship = false) →
      scanStops acc (pre ++ stu :: post) = scanStops acc (pre ++ stu :: post')) ∧
    (∀ u, updates.find? (fun u => u.tripId == tid) = some u →
      u.stopTimeUpdates ≠ [] →
      (∀ stu ∈ u.stopTimeUpdates,
        isCancelledRel stu.scheduleRelationship = false) →
      ∃ d, d ∈ u.stopTimeUpdates.map effDelay ∧
        (∀ s ∈ u.stopTimeUpdates.map effDelay, s.natAbs ≤ d.natAbs) ∧
        getTripDelay updates tid
          = some ⟨jsRoundDiv60 d,
              if 1 ≤ (jsRoundDiv60 d).natAbs then .delayed else .onTime⟩) ∧
    (∀ u, updates.find? (fun u => u.tripId == tid) = some u →
      u.stopTimeUpdates = [] → getTripDelay updates tid = none) ∧
    (updates.find? (fun u => u.tripId == tid) = none →
      getTripDelay updates tid = none) ∧
    getTripDelay [⟨"t1", "r", "", "",
        [⟨"a", 1, none, some ⟨0, 0⟩, none⟩, ⟨"b", 2, none, some ⟨300, 0⟩, none⟩,
          ⟨"c", 3, none, some ⟨-60, 0⟩, none⟩]⟩] "t1"
      = some ⟨5, .delayed⟩ := by
  refine ⟨?_, ?_, ?_, ?_, ?_, by decide⟩
  · intro u hu hex
    have hne : u.stopTimeUpdates ≠ [] := by
      obtain ⟨stu, hstu, _⟩ := hex
      intro h
      rw [h] at hstu
      simp at hstu
    have hcan : (scanStops 0 u.stopTimeUpdates).2 = true := by
      rw [scanStops_cancelled_iff]
      rw [List.any_eq_true]
      obtain ⟨stu, hstu, hc⟩ := hex
      exact ⟨stu, hstu, hc⟩
    refine ⟨jsRoundDiv60 (scanStops 0 u.stopTimeUpdates).1, ?_⟩
    simp [getTripDelay, hu, hne, hcan, classifyStatus]
  · intro pre post post' stu acc hc hnc
    exact scanStops_stops_at_cancel pre stu hc post post' acc hnc
  · intro u hu hne hnc
    obtain ⟨i1, i2, i3, i4⟩ := scanStops_no_cancel u.stopTimeUpdates hnc 0
    set r : Int := (scanStops 0 u.stopTimeUpdates).1 with hr
    have hmem : r ∈ u.stopTimeUpdates.map effDelay := by
      rcases i2 with h | h
      · -- the accumulator never moved: every delay is 0, so r = 0 is the
        -- effective delay of the (existing) first stop
        obtain ⟨s0, rest, hsplit⟩ : ∃ s0 rest, u.stopTimeUpdates = s0 :: rest := by
          cases hsu : u.stopTimeUpdates with
          | nil => exact absurd hsu hne
          | cons s0 rest => exact ⟨s0, rest, rfl⟩
        have h0 : (effDelay s0).natAbs ≤ r.natAbs := by
          apply i4
          rw [hsplit]
          exact List.mem_cons_self s0 rest
        rw [h] at h0 ⊢
        have : effDelay s0 = 0 := by
          rw [← Int.natAbs_eq_zero]
          simpa using h0
        rw [hsplit]
        simp [← this]
      · exact h
    refine ⟨r, hmem, ?_, ?_⟩
    · intro s hs
      rw [List.mem_map] at hs
      obtain ⟨stu, hstu, rfl⟩ := hs
      exact i4 stu hstu
    · simp [getTripDelay, hu, hne, i1, classifyStatus, ← hr]
  · intro u hu hempty
    simp [getTripDelay, hu, hempty]
  · intro hu
    simp [getTripDelay, hu]

/-- Witness for C6: the max-magnitude conjunct applied to the
`[0, 300, -60]` example trip (yielding the dominating delay 300s → 5min,
`delayed`), and the cancellation conjunct applied to a trip whose second
stop is `SKIPPED`. -/
theorem getTripDelay_spec_witness :
    (∃ d, d ∈ ([⟨"a", 1, none, some ⟨0, 0⟩, none⟩,
          ⟨"b", 2, none, some ⟨300, 0⟩, none⟩,
          ⟨"c", 3, none, some ⟨-60, 0⟩, none⟩] :
            List StopTimeUpdate).map effDelay ∧
      (∀ s ∈ ([⟨"a", 1, none, some ⟨0, 0⟩, none⟩,
          ⟨"b", 2, none, some ⟨300, 0⟩, none⟩,
          ⟨"c", 3, none, some ⟨-60, 0⟩, none⟩] :
            List StopTimeUpdate).map effDelay, s.natAbs ≤ d.natAbs) ∧
      getTripDelay [⟨"t1", "r", "", "",
          [⟨"a", 1, none, some ⟨0, 0⟩, none⟩, ⟨"b", 2, none, some ⟨300, 0⟩, none⟩,
            ⟨"c", 3, none, some ⟨-60, 0⟩, none⟩]⟩] "t1"
        = some ⟨jsRoundDiv60 d,
            if 1 ≤ (jsRoundDiv60 d).natAbs then .delayed else .onTime⟩) ∧
    (∃ m, getTripDelay [⟨"t2", "r", "", "",
        [⟨"a", 1, none, some ⟨500, 0⟩, none⟩,
          ⟨"b", 2, none, none, some "SKIPPED"⟩]⟩] "t2"
      = some ⟨m, .cancelled⟩) := by
  constructor
  · exact (getTripDelay_spec [⟨"t1", "r", "", "",
        [⟨"a", 1, none, some ⟨0, 0⟩, none⟩, ⟨"b", 2, none, some ⟨300, 0⟩, none⟩,
          ⟨"c", 3, none, some ⟨-60, 0⟩, none⟩]⟩] "t1").2.2.1
      ⟨"t1", "r", "", "",
        [⟨"a", 1, none, some ⟨0, 0⟩, none⟩, ⟨"b", 2, none, some ⟨300, 0⟩, none⟩,
          ⟨"c", 3, none, some ⟨-60, 0⟩, none⟩]⟩
      (by decide) (by decide) (by decide)
  · exact (getTripDelay_spec [⟨"t2", "r", "", "",
        [⟨"a", 1, none, some ⟨500, 0⟩, none⟩,
          ⟨"b", 2, none, none, some "SKIPPED"⟩]⟩] "t2").1
      ⟨"t2", "r", "", "",
        [⟨"a", 1, none, some ⟨500, 0⟩, none⟩,
          ⟨"b", 2, none, none, some "SKIPPED"⟩]⟩
      (by decide) ⟨⟨"b", 2, none, none, some "SKIPPED"⟩, by decide, by decide⟩

/-- The nested loop of `getStopDelay` is the first `stopId` match in the
concatenation of the stop lists of the updates passing the trip filter. -/
theorem findStopUpdate_eq_find?_flatMap (stopId : String)
    (tripId : Option String) :
    ∀ updates : List TripUpdate,
      findStopUpdate updates stopId tripId
        = ((updates.filter (fun u => ¬ tripFilterBlocks tripId u)).flatMap
            (fun u => u.stopTimeUpdates)).find?
              (fun stu => stu.stopId == stopId) := by
  intro updates
  induction updates with
  | nil => simp [findStopUpdate]
  | cons u rest ih =>
      by_cases hb : tripFilterBlocks tripId u = true
      · simp [findStopUpdate, hb, List.filter_cons, ih]
      · simp only [Bool.not_eq_true] at hb
        simp only [findStopUpdate, hb, Bool.false_eq_true, if_false,
          List.filter_cons, hb, Bool.not_false, if_pos, List.flatMap_cons,
          List.find?_append]
        cases hf : u.stopTimeUpdates.find? (fun stu => stu.stopId == stopId) with
        | some stu => simp [hf]
        | none => simp [hf, ih]

/-- **C7 (amended).** `getStopDelay` finds the stop update for `stopId`
within the updates passing the trip filter (first match in update order;
`tripId` omitted — or empty — matches any trip) and returns the delay
`departureDelay || arrivalDelay || 0` — JavaScript `||`, so a *zero or
missing* departure delay falls through to the arrival delay — converted
to minutes by JS `Math.round`, with status `cancelled` when
`scheduleRelationship` is `SKIPPED`/`CANCELED`, else `delayed` iff
`|delayMinutes| >= 1`, else `on-time`; no match returns `null`. -/
theorem getStopDelay_spec (updates : List TripUpdate) (stopId : String)
    (tripId : Option String) :
    (findStopUpdate updates stopId tripId
      = ((updates.filter (fun u => ¬ tripFilterBlocks tripId u)).flatMap
          (fun u => u.stopTimeUpdates)).find?
            (fun stu => stu.stopId == stopId)) ∧
    (∀ stu, findStopUpdate updates stopId tripId = some stu →
      getStopDelay updates stopId tripId
        = some ⟨jsRoundDiv60 (effDelay stu),
            if isCancelledRel stu.scheduleRelationship then .cancelled
            else if 1 ≤ (jsRoundDiv60 (effDelay stu)).natAbs then .delayed
            else .onTime⟩) ∧
    (findStopUpdate updates stopId tripId = none →
      getStopDelay updates stopId tripId = none) ∧
    (∀ stu : StopTimeUpdate, ∀ d, stu.departure = some d → d.delay ≠ 0 →
      effDelay stu = d.delay) ∧
    (∀ stu : StopTimeUpdate, ∀ a,
      (stu.departure = none ∨ ∃ d, stu.departure = some d ∧ d.delay = 0) →
      stu.arrival = some a → a.delay ≠ 0 → effDelay stu = a.delay) ∧
    (∀ stu : StopTimeUpdate,
      (stu.departure = none ∨ ∃ d, stu.departure = some d ∧ d.delay = 0) →
      (stu.arrival = none ∨ ∃ a, stu.arrival = some a ∧ a.delay = 0) →
      effDelay stu = 0) := by
  refine ⟨findStopUpdate_eq_find?_flatMap stopId tripId updates, ?_, ?_, ?_, ?_, ?_⟩
  · intro stu hstu
    simp [getStopDelay, hstu, classifyStatus]
  · intro h
    simp [getStopDelay, h]
  · intro stu d hd hnz
    simp [effDelay, hd, hnz]
  · intro stu a hdep ha hnz
    rcases hdep with h | ⟨d, hd, hz⟩
    · simp [effDelay, h, ha, hnz]
    · simp [effDelay, hd, hz, ha, hnz]
  · intro stu hdep harr
    rcases hdep with h | ⟨d, hd, hz⟩ <;>
      rcases harr with h2 | ⟨a, ha, haz⟩ <;>
        simp [effDelay, *]

/-- Counterexample for C7 as stated: a stop with `departureDelay = 0` and
`arrivalDelay = 120`. Under the claim's `departureDelay ?? arrivalDelay
?? 0` the delay would be 0 minutes (`on-time`), but the code's `||` lets
the zero departure delay fall through to the 120-second arrival delay,
returning 2 minutes and `delayed`. -/
theorem getStopDelay_nullish_counterexample :
    getStopDelay [⟨"t1", "r", "", "",
        [⟨"s", 1, some ⟨120, 0⟩, some ⟨0, 0⟩, none⟩]⟩] "s" none
      = some ⟨2, .delayed⟩ ∧
    getStopDelaySpec [⟨"t1", "r", "", "",
        [⟨"s", 1, some ⟨120, 0⟩, some ⟨0, 0⟩, none⟩]⟩] "s" none
      = some ⟨0, .onTime⟩ ∧
    getStopDelay [⟨"t1", "r", "", "",
        [⟨"s", 1, some ⟨120, 0⟩, some ⟨0, 0⟩, none⟩]⟩] "s" none
      ≠ getStopDelaySpec [⟨"t1", "r", "", "",
        [⟨"s", 1, some ⟨120, 0⟩, some ⟨0, 0⟩, none⟩]⟩] "s" none := by
  refine ⟨by decide, by decide, by decide⟩

/-- Witness for C7 (amended): the characterization applied to a concrete
feed — a skipped stop is `cancelled`, and the `||` fallthrough picks the
arrival delay when the departure delay is zero. -/
theorem getStopDelay_spec_witness :
    getStopDelay [⟨"t1", "r", "", "",
        [⟨"s", 1, some ⟨120, 0⟩, some ⟨0, 0⟩, none⟩]⟩] "s" none
      = some ⟨jsRoundDiv60 (effDelay ⟨"s", 1, some ⟨120, 0⟩, some ⟨0, 0⟩, none⟩),
          if isCancelledRel (none : Option String) then .cancelled
          else if 1 ≤ (jsRoundDiv60
              (effDelay ⟨"s", 1, some ⟨120, 0⟩, some ⟨0, 0⟩, none⟩)).natAbs
          then .delayed else .onTime⟩ ∧
    effDelay ⟨"s", 1, some ⟨120, 0⟩, some ⟨0, 0⟩, none⟩ = 120 := by
  constructor
  · exact (getStopDelay_spec [⟨"t1", "r", "", "",
        [⟨"s", 1, some ⟨120, 0⟩, some ⟨0, 0⟩, none⟩]⟩] "s" none).2.1
      ⟨"s", 1, some ⟨120, 0⟩, some ⟨0, 0⟩, none⟩ (by decide)
  · exact (getStopDelay_spec [] "s" none).2.2.2.2.1
      ⟨"s", 1, some ⟨120, 0⟩, some ⟨0, 0⟩, none⟩ ⟨120, 0⟩
      (Or.inr ⟨⟨0, 0⟩, rfl, rfl⟩) rfl (by decide)

/-- **C1 (amended).** Stale-window behavior of the two caches. For
`MemoryCache` the claim holds as stated: with stale window `s` frozen in
the entry, `ttl < age <= ttl + s` serves the cached value immediately
(spawning a background refresh exactly when none is in flight), and
`age > ttl + s` is a synchronous miss that stores the loader's result.
For `EnhancedCache` the stale window is *absolute*, not additive: the
entry is stale-served while `ttl <= age < staleWhileRevalidateMs` and
treated as a synchronous miss once `age >= staleWhileRevalidateMs`, even
when `age <= ttl + staleWhileRevalidateMs` still holds. -/
theorem cache_stale_window_behavior (V : Type) :
    (∀ (c : MemoryCache V) (key : String) (now : Int) (opts : CacheOptions)
        (f : Except JsError V) (entry : MEntry V) (s : Int),
      JsMap.find? key c.cache = some entry →
      entry.staleWhileRevalidate = some s → 0 < s →
      (entry.ttl < now - entry.timestamp →
        now - entry.timestamp ≤ entry.ttl + s →
        (c.get key now opts f).1
          = (.ok entry.data, .staleHit (!entry.refreshPromise))) ∧
      (entry.ttl + s < now - entry.timestamp →
        (∀ v, (c.get key now opts (.ok v)).1 = (.ok v, .missOk) ∧
          JsMap.find? key ((c.get key now opts (.ok v)).2).cache
            = some ⟨v, now, opts.ttl, opts.staleWhileRevalidate, false⟩) ∧
        (∀ e, (c.get key now opts (.error e)).1 = (.error e, .missErr)))) ∧
    (∀ (c : EnhancedCache V) (key : String) (now : Int)
        (entry : CacheEntry V) (s : Int),
      JsMap.find? key c.cache = some entry →
      c.config.staleWhileRevalidateMs = some s → s ≠ 0 →
      (c.config.ttlMs ≤ now - entry.timestamp → now - entry.timestamp < s →
        (∀ f, key ∈ c.revalidationPromises →
          (c.get key now f).1 = (.ok entry.data, .staleHit false) ∧
          (c.get key now f).2 = c) ∧
        (∀ f, key ∉ c.revalidationPromises →
          (c.get key now f).1 = (.ok entry.data, .staleHit true))) ∧
      (c.config.ttlMs ≤ now - entry.timestamp → s ≤ now - entry.timestamp →
        (∀ v, (c.get key now (.ok v)).1 = (.ok v, .missOk) ∧
          JsMap.find? key ((c.get key now (.ok v)).2).cache
            = some ⟨v, now, false⟩) ∧
        (∀ e, (c.get key now (.error e)).1 = (.error e, .missErr)))) := by
  constructor
  · intro c key now opts f entry s hfind hswr hs
    have hsne : s ≠ 0 := by omega
    have hmatch : ∀ age : Int, mExpired entry age
        = if s ≠ 0 then decide (entry.ttl + s < age)
          else decide (entry.ttl < age) := by
      intro age
      rw [mExpired, hswr]
    have hexp_of : ∀ age : Int, age ≤ entry.ttl + s →
        mExpired entry age = false := by
      intro age hage
      rw [hmatch, if_pos hsne]
      simp only [decide_eq_false_iff_not, not_lt]
      omega
    constructor
    · intro h1 h2
      have hfresh : ¬ ¬ entry.ttl < now - entry.timestamp := by
        simp only [not_not]
        omega
      have hexp := hexp_of (now - entry.timestamp) h2
      cases hrp : entry.refreshPromise <;>
        simp [MemoryCache.get, hfind, hfresh, hexp, hrp]
    · intro h1
      have hfresh : ¬ ¬ entry.ttl < now - entry.timestamp := by
        simp only [not_not]
        omega
      have hexp : mExpired entry (now - entry.timestamp) = true := by
        rw [hmatch, if_pos hsne]
        simp only [decide_eq_true_eq]
        omega
      refine ⟨fun v => ⟨?_, ?_⟩, fun e => ?_⟩
      · simp [MemoryCache.get, hfind, hfresh, hexp]
      · simp only [MemoryCache.get, hfind, hfresh, hexp]
        simp [MemoryCache.set, JsMap.find?_set_self]
      · simp [MemoryCache.get, hfind, hfresh, hexp]
  · intro c key now entry s hfind hswr hs
    constructor
    · intro h1 h2
      have hfresh : ¬ now - entry.timestamp < c.config.ttlMs := by omega
      have hgate : staleGate c.config.staleWhileRevalidateMs
          (now - entry.timestamp) = true := by
        simp only [staleGate, hswr, Bool.and_eq_true, decide_eq_true_eq]
        exact ⟨hs, h2⟩
      constructor
      · intro f hmem
        constructor <;> simp [EnhancedCache.get, hfind, hfresh, hgate, hmem]
      · intro f hmem
        simp [EnhancedCache.get, hfind, hfresh, hgate, hmem]
    · intro h1 h2
      have hfresh : ¬ now - entry.timestamp < c.config.ttlMs := by omega
      have hgate : staleGate c.config.staleWhileRevalidateMs
          (now - entry.timestamp) = false := by
        simp only [staleGate, hswr, Bool.and_eq_false_iff, decide_eq_false_iff_not]
        right
        omega
      refine ⟨fun v => ⟨?_, ?_⟩, fun e => ?_⟩
      · simp [EnhancedCache.get, hfind, hfresh, hgate]
      · simp only [EnhancedCache.get, hfind, hfresh, hgate]
        simp [EnhancedCache.set, JsMap.find?_set_self]
      · simp [EnhancedCache.get, hfind, hfresh, hgate]

/-- Counterexample for C1 as stated: an `EnhancedCache` with
`ttlMs = 3` and `staleWhileRevalidateMs = 6` holding the value 1 stored
at time 0, read at time 7. The age 7 satisfies `ttl < age <= ttl +
staleWindow` (3 < 7 <= 9), so the claim demands a stale hit returning
the cached value 1 — but the code compares the age against the absolute
window 6, treats the call as a miss, synchronously fetches, and returns
the loader's value 2. -/
theorem enhancedCache_staleWindow_counterexample :
    JsMap.find? "k"
        ((EnhancedCache.empty ⟨3, 2, some 6⟩).set "k" (1 : Int) 0).cache
      = some ⟨1, 0, false⟩ ∧
    ((3 : Int) < 7 - 0 ∧ (7 : Int) - 0 ≤ 3 + 6) ∧
    (((EnhancedCache.empty ⟨3, 2, some 6⟩).set "k" (1 : Int) 0).get "k" 7
        (.ok 2)).1 = (.ok 2, .missOk) := by decide

/-- Witness for C1 (amended): a `MemoryCache` entry (`ttl = 3`,
stale window 6, stored at 0) read at age 7 is a stale hit spawning a
refresh, and at age 10 a synchronous miss storing the fetched value; an
`EnhancedCache` entry under config `ttlMs = 3`, window 6 read at age 5
is a stale hit, and at age 7 a synchronous miss. -/
theorem cache_stale_window_witness :
    ((((MemoryCache.empty 10 : MemoryCache Int).set "k" 1 ⟨3, some 6⟩ 0).get
        "k" 7 ⟨3, some 6⟩ (.ok 2)).1 = (.ok 1, .staleHit true)) ∧
    ((((MemoryCache.empty 10 : MemoryCache Int).set "k" 1 ⟨3, some 6⟩ 0).get
        "k" 10 ⟨3, some 6⟩ (.ok 2)).1 = (.ok 2, .missOk)) ∧
    ((((EnhancedCache.empty ⟨3, 2, some 6⟩).set "k" (1 : Int) 0).get "k" 5
        (.ok 2)).1 = (.ok 1, .staleHit true)) ∧
    ((((EnhancedCache.empty ⟨3, 2, some 6⟩).set "k" (1 : Int) 0).get "k" 7
        (.ok 2)).1 = (.ok 2, .missOk)) := by
  have h := cache_stale_window_behavior Int
  refine ⟨?_, ?_, ?_, ?_⟩
  · have := ((h.1 ((MemoryCache.empty 10).set "k" 1 ⟨3, some 6⟩ 0) "k" 7
      ⟨3, some 6⟩ (.ok 2) ⟨1, 0, 3, some 6, false⟩ 6 (by decide) rfl
      (by decide)).1 (by decide) (by decide))
    simpa using this
  · exact (((h.1 ((MemoryCache.empty 10).set "k" 1 ⟨3, some 6⟩ 0) "k" 10
      ⟨3, some 6⟩ (.ok 2) ⟨1, 0, 3, some 6, false⟩ 6 (by decide) rfl
      (by decide)).2 (by decide)).1 2).1
  · exact ((h.2 ((EnhancedCache.empty ⟨3, 2, some 6⟩).set "k" (1 : Int) 0)
      "k" 5 ⟨1, 0, false⟩ 6 (by decide) rfl (by decide)).1 (by decide)
      (by decide)).2 (.ok 2) (by decide)
  · exact (((h.2 ((EnhancedCache.empty ⟨3, 2, some 6⟩).set "k" (1 : Int) 0)
      "k" 7 ⟨1, 0, false⟩ 6 (by decide) rfl (by decide)).2 (by decide)
      (by decide)).1 2).1

/-- **C9.** Single-flight background refresh (`EnhancedCache`): (a) a
`get` while a refresh is in flight for the key never spawns another
(its kind is never `staleHit true`), and a stale hit under an in-flight
refresh leaves the state untouched; (b) a spawning stale hit happens only
with no refresh in flight and records exactly this key as in flight;
(c) a successful refresh completion stores the fresh entry and clears
the in-flight marker; (d) a failed refresh completion clears the marker
and leaves the cache untouched, so a later call may retry. -/
theorem cache_single_flight (V : Type) :
    (∀ (c : EnhancedCache V) (key : String) (now : Int) (f : Except JsError V),
      key ∈ c.revalidationPromises →
      (c.get key now f).1.2 ≠ .staleHit true ∧
      ((c.get key now f).1.2 = .staleHit false → (c.get key now f).2 = c)) ∧
    (∀ (c : EnhancedCache V) (key : String) (now : Int) (f : Except JsError V),
      (c.get key now f).1.2 = .staleHit true →
      key ∉ c.revalidationPromises ∧
      (c.get key now f).2.revalidationPromises
        = key :: c.revalidationPromises) ∧
    (∀ (c : EnhancedCache V) (key : String) (data : V) (now : Int),
      c.revalidationPromises.Nodup →
      JsMap.find? key (c.revalidateSuccess key data now).cache
        = some ⟨data, now, false⟩ ∧
      key ∉ (c.revalidateSuccess key data now).revalidationPromises) ∧
    (∀ (c : EnhancedCache V) (key : String),
      c.revalidationPromises.Nodup →
      (c.revalidateFailure key).cache = c.cache ∧
      key ∉ (c.revalidateFailure key).revalidationPromises) := by
  refine ⟨?_, ?_, ?_, ?_⟩
  · intro c key now f hmem
    rw [EnhancedCache.get.eq_def]
    cases hfind : JsMap.find? key c.cache with
    | none =>
        cases f with
        | ok v => exact ⟨by simp, by simp⟩
        | error e => exact ⟨by simp, by simp⟩
    | some entry =>
        by_cases hfr : now - entry.timestamp < c.config.ttlMs
        · simp [hfr]
        · by_cases hgate : staleGate c.config.staleWhileRevalidateMs
              (now - entry.timestamp) = true
          · simp [hfr, hgate, hmem]
          · simp only [Bool.not_eq_true] at hgate
            cases f with
            | ok v => simp [hfr, hgate]
            | error e => simp [hfr, hgate]
  · intro c key now f hspawn
    rw [EnhancedCache.get.eq_def] at hspawn ⊢
    cases hfind : JsMap.find? key c.cache with
    | none =>
        rw [hfind] at hspawn
        cases f with
        | ok v => simp at hspawn
        | error e => simp at hspawn
    | some entry =>
        rw [hfind] at hspawn
        by_cases hfr : now - entry.timestamp < c.config.ttlMs
        · simp [hfr] at hspawn
        · by_cases hgate : staleGate c.config.staleWhileRevalidateMs
              (now - entry.timestamp) = true
          · by_cases hmem : key ∈ c.revalidationPromises
            · simp [hfr, hgate, hmem] at hspawn
            · refine ⟨hmem, ?_⟩
              simp [hfr, hgate, hmem]
          · simp only [Bool.not_eq_true] at hgate
            cases f with
            | ok v => simp [hfr, hgate] at hspawn
            | error e => simp [hfr, hgate] at hspawn
  · intro c key data now hnd
    constructor
    · simp [EnhancedCache.revalidateSuccess, EnhancedCache.set,
        JsMap.find?_set_self]
    · have : (c.set key data now).revalidationPromises
          = c.revalidationPromises := rfl
      simp only [EnhancedCache.revalidateSuccess, this]
      exact hnd.not_mem_erase
  · intro c key hnd
    exact ⟨rfl, hnd.not_mem_erase⟩

/-- A concrete cache state: a stale entry for key `"k"` (value 1, stored
at time 0, config `ttlMs = 3`, window 6) with a refresh already in
flight for `"k"`. -/
def staleFlight : EnhancedCache Int :=
  { config := ⟨3, 2, some 6⟩
    cache := [("k", ⟨1, 0, false⟩)]
    revalidationPromises := ["k"] }

/-- Witness for C9: in a concrete cache holding a stale entry for `"k"`
with a refresh already in flight, a stale `get` does not spawn a second
refresh and leaves the state unchanged; completing the refresh
successfully stores the fresh value and clears the marker; a failed
completion clears the marker and keeps the stale entry. -/
theorem cache_single_flight_witness :
    (staleFlight.get "k" 5 (.ok 2)).1.2 ≠ .staleHit true ∧
    JsMap.find? "k" (staleFlight.revalidateSuccess "k" 2 9).cache
      = some ⟨2, 9, false⟩ ∧
    "k" ∉ (staleFlight.revalidateSuccess "k" 2 9).revalidationPromises ∧
    (staleFlight.revalidateFailure "k").cache = [("k", ⟨1, 0, false⟩)] ∧
    "k" ∉ (staleFlight.revalidateFailure "k").revalidationPromises := by
  have h := cache_single_flight Int
  exact ⟨(h.1 staleFlight "k" 5 (.ok 2) (by decide)).1,
    (h.2.2.1 staleFlight "k" 2 9 (by decide)).1,
    (h.2.2.1 staleFlight "k" 2 9 (by decide)).2,
    (h.2.2.2 staleFlight "k" (by decide)).1,
    (h.2.2.2 staleFlight "k" (by decide)).2⟩

/-- Keys with the same name in a nodup-keyed map carry the same value. -/
theorem value_unique_of_nodup (m : JsMap β) (k : String) (a b : β)
    (hnd : (JsMap.keys m).Nodup) (ha : (k, a) ∈ m) (hb : (k, b) ∈ m) :
    a = b := by
  have h1 := JsMap.find?_eq_some_of_mem k a m hnd ha
  have h2 := JsMap.find?_eq_some_of_mem k b m hnd hb
  rw [h1] at h2
  exact Option.some_inj.mp h2

/-- `evictLRU` when the oldest key is a real (truthy) key. -/
theorem evictLRU_eq (c : MemoryCache V) (kv : String × Nat)
    (hfo : findOldest c.accessOrder = some kv) (hne : kv.1 ≠ "") :
    c.evictLRU
      = { c with
          cache := JsMap.delete kv.1 c.cache
          accessOrder := JsMap.delete kv.1 c.accessOrder } := by
  rw [MemoryCache.evictLRU, hfo]
  exact if_neg hne

/-- `evictLRU` when the oldest key is the empty string: the falsy
`if (oldestKey)` guard skips the eviction entirely. -/
theorem evictLRU_eq_self (c : MemoryCache V) (kv : String × Nat)
    (hfo : findOldest c.accessOrder = some kv) (hb : kv.1 = "") :
    c.evictLRU = c := by
  rw [MemoryCache.evictLRU, hfo]
  exact if_pos hb

/-- When the key is already present, `MemoryCache.set` never evicts: it
replaces the entry and bumps the key's access stamp. -/
theorem memoryCache_set_present (c : MemoryCache V) (key : String) (v : V)
    (opts : CacheOptions) (now : Int) (hkey : key ∈ JsMap.keys c.cache) :
    c.set key v opts now
      = { c with
          cache := JsMap.set key
            ⟨v, now, opts.ttl, opts.staleWhileRevalidate, false⟩ c.cache
          accessOrder := JsMap.set key (c.accessCounter + 1) c.accessOrder
          accessCounter := c.accessCounter + 1 } := by
  rw [MemoryCache.set]
  have hfind : ¬ (JsMap.find? key c.cache).isNone = true := by
    have := (JsMap.find?_isSome_iff_mem_keys key c.cache).2 hkey
    cases h : JsMap.find? key c.cache with
    | none => rw [h] at this; simp at this
    | some e => simp [h]
  rw [if_neg (fun hh => hfind hh.2)]

/-- Every `MemoryCache.get` leaves the accessed key carrying the new
(maximal) access stamp — reads refresh recency. -/
theorem memoryCache_get_stamps (c : MemoryCache V) (key : String) (now : Int)
    (opts : CacheOptions) (f : Except JsError V) :
    JsMap.find? key ((c.get key now opts f).2).accessOrder
      = some ((c.get key now opts f).2).accessCounter := by
  rw [MemoryCache.get.eq_def]
  cases hfind : JsMap.find? key c.cache with
  | none =>
      cases f with
      | ok v => simp [MemoryCache.set, JsMap.find?_set_self]
      | error e => simp [JsMap.find?_set_self]
  | some entry =>
      by_cases hfr : ¬ entry.ttl < now - entry.timestamp
      · simp [hfr, JsMap.find?_set_self]
      · by_cases hexp : mExpired entry (now - entry.timestamp) = true
        · cases f with
          | ok v => simp [hfr, hexp, MemoryCache.set, JsMap.find?_set_self]
          | error e => simp [hfr, hexp, JsMap.find?_set_self]
        · cases hrp : entry.refreshPromise <;>
            simp [hfr, hexp, hrp, JsMap.find?_set_self]

/-- A `get` of a key that is present in the cache never changes the
cache's key set (in particular it evicts nothing). -/
theorem memoryCache_get_keys (c : MemoryCache V) (key : String) (now : Int)
    (opts : CacheOptions) (f : Except JsError V)
    (hkey : key ∈ JsMap.keys c.cache) :
    JsMap.keys ((c.get key now opts f).2).cache = JsMap.keys c.cache := by
  have hkey0 : ∀ m : JsMap Nat, ∀ cnt : Nat, key ∈ JsMap.keys
      ({ c with accessOrder := m, accessCounter := cnt } : MemoryCache V).cache :=
    fun m cnt => hkey
  rw [MemoryCache.get.eq_def]
  cases hfind : JsMap.find? key c.cache with
  | none =>
      exfalso
      have := (JsMap.find?_isSome_iff_mem_keys key c.cache).2 hkey
      rw [hfind] at this
      simp at this
  | some entry =>
      by_cases hfr : ¬ entry.ttl < now - entry.timestamp
      · simp [hfr]
      · by_cases hexp : mExpired entry (now - entry.timestamp) = true
        · cases f with
          | ok v =>
              simp only [hfr, if_false, hexp, if_true]
              rw [memoryCache_set_present _ key v opts now (hkey0 _ _)]
              simp [JsMap.keys_set, hkey]
          | error e => simp [hfr, hexp]
        · cases hrp : entry.refreshPromise
          · simp only [hfr, if_false, hexp, hrp, Bool.false_eq_true, if_false]
            simp [JsMap.keys_set, hkey]
          · simp [hfr, hexp, hrp]

/-- A `get` of a present key strictly increases the access counter and
keeps every other key's access-order entry. -/
theorem memoryCache_get_accessOrder (c : MemoryCache V) (key : String)
    (now : Int) (opts : CacheOptions) (f : Except JsError V)
    (hkey : key ∈ JsMap.keys c.cache) :
    c.accessCounter < ((c.get key now opts f).2).accessCounter ∧
    (∀ kv : String × Nat, kv ∈ c.accessOrder → kv.1 ≠ key →
      kv ∈ ((c.get key now opts f).2).accessOrder) := by
  have hkey0 : ∀ m : JsMap Nat, ∀ cnt : Nat, key ∈ JsMap.keys
      ({ c with accessOrder := m, accessCounter := cnt } : MemoryCache V).cache :=
    fun m cnt => hkey
  rw [MemoryCache.get.eq_def]
  cases hfind : JsMap.find? key c.cache with
  | none =>
      exfalso
      have := (JsMap.find?_isSome_iff_mem_keys key c.cache).2 hkey
      rw [hfind] at this
      simp at this
  | some entry =>
      by_cases hfr : ¬ entry.ttl < now - entry.timestamp
      · refine ⟨by simp [hfr], ?_⟩
        intro kv hkv hne
        simp only [hfr, if_true]
        exact JsMap.mem_set_of_mem_ne _ _ _ _ hkv hne
      · by_cases hexp : mExpired entry (now - entry.timestamp) = true
        · cases f with
          | ok v =>
              simp only [hfr, if_false, hexp, if_true]
              rw [memoryCache_set_present _ key v opts now (hkey0 _ _)]
              refine ⟨by simp only []; omega, ?_⟩
              intro kv hkv hne
              simp only []
              exact JsMap.mem_set_of_mem_ne _ _ _ _
                (JsMap.mem_set_of_mem_ne _ _ _ _ hkv hne) hne
          | error e =>
              refine ⟨by simp [hfr, hexp], ?_⟩
              intro kv hkv hne
              simp only [hfr, if_false, hexp, if_true]
              exact JsMap.mem_set_of_mem_ne _ _ _ _ hkv hne
        · cases hrp : entry.refreshPromise
          · refine ⟨by simp [hfr, hexp, hrp], ?_⟩
            intro kv hkv hne
            simp only [hfr, if_false, hexp, hrp, Bool.false_eq_true, if_false]
            exact JsMap.mem_set_of_mem_ne _ _ _ _ hkv hne
          · refine ⟨by simp [hfr, hexp, hrp], ?_⟩
            intro kv hkv hne
            simp only [hfr, if_false, hexp, hrp, if_true]
            exact JsMap.mem_set_of_mem_ne _ _ _ _ hkv hne

/-- A `get` of a present key preserves key-nodup of the access-order
map. -/
theorem memoryCache_get_nodup (c : MemoryCache V) (key : String) (now : Int)
    (opts : CacheOptions) (f : Except JsError V)
    (hkey : key ∈ JsMap.keys c.cache)
    (hnd : (JsMap.keys c.accessOrder).Nodup) :
    (JsMap.keys ((c.get key now opts f).2).accessOrder).Nodup := by
  have hkey0 : ∀ m : JsMap Nat, ∀ cnt : Nat, key ∈ JsMap.keys
      ({ c with accessOrder := m, accessCounter := cnt } : MemoryCache V).cache :=
    fun m cnt => hkey
  rw [MemoryCache.get.eq_def]
  cases hfind : JsMap.find? key c.cache with
  | none =>
      exfalso
      have := (JsMap.find?_isSome_iff_mem_keys key c.cache).2 hkey
      rw [hfind] at this
      simp at this
  | some entry =>
      by_cases hfr : ¬ entry.ttl < now - entry.timestamp
      · simp only [hfr, if_true]
        exact JsMap.nodup_keys_set _ _ _ hnd
      · by_cases hexp : mExpired entry (now - entry.timestamp) = true
        · cases f with
          | ok v =>
              simp only [hfr, if_false, hexp, if_true]
              rw [memoryCache_set_present _ key v opts now (hkey0 _ _)]
              exact JsMap.nodup_keys_set _ _ _ (JsMap.nodup_keys_set _ _ _ hnd)
          | error e =>
              simp only [hfr, if_false, hexp, if_true]
              exact JsMap.nodup_keys_set _ _ _ hnd
        · cases hrp : entry.refreshPromise
          · simp only [hfr, if_false, hexp, hrp, Bool.false_eq_true, if_false]
            exact JsMap.nodup_keys_set _ _ _ hnd
          · simp only [hfr, if_false, hexp, hrp, if_true]
            exact JsMap.nodup_keys_set _ _ _ hnd

/-- Core LRU survival fact: in a well-stamped cache where `key` carries
the (strictly maximal) current counter as its stamp and some other key
exists with a strictly smaller stamp, a subsequent `set` cannot evict
`key`. -/
theorem memoryCache_set_keeps_fresh_key (c : MemoryCache V)
    (key k2 : String) (v2 : V) (opts2 : CacheOptions) (now2 : Int)
    (hnd : (JsMap.keys c.accessOrder).Nodup)
    (hstamp : JsMap.find? key c.accessOrder = some c.accessCounter)
    (hother : ∃ kv ∈ c.accessOrder, kv.1 ≠ key ∧ kv.2 < c.accessCounter)
    (hkey : key ∈ JsMap.keys c.cache) :
    key ∈ JsMap.keys ((c.set k2 v2 opts2 now2).cache) := by
  rw [MemoryCache.set]
  by_cases hcond : c.maxSize ≤ c.cache.length ∧
      (JsMap.find? k2 c.cache).isNone = true
  · rw [if_pos hcond]
    obtain ⟨kvo, hkvo_mem, hkvo_ne, hkvo_lt⟩ := hother
    have hne_nil : c.accessOrder ≠ [] := by
      intro h
      rw [h] at hkvo_mem
      simp at hkvo_mem
    obtain ⟨kv0, hfo⟩ : ∃ kv0, findOldest c.accessOrder = some kv0 := by
      have hs := findOldest_isSome c.accessOrder hne_nil
      cases hh : findOldest c.accessOrder with
      | none => rw [hh] at hs; simp at hs
      | some kv0 => exact ⟨kv0, rfl⟩
    have hmin := findOldest_min c.accessOrder kv0 hfo
    have hmem := findOldest_mem c.accessOrder kv0 hfo
    have hkv0_ne_key : kv0.1 ≠ key := by
      intro heq
      have hkv0pair : (key, kv0.2) ∈ c.accessOrder := by
        have hp : kv0 = (kv0.1, kv0.2) := rfl
        rw [heq] at hp
        exact hp ▸ hmem
      have hkeypair : (key, c.accessCounter) ∈ c.accessOrder :=
        JsMap.mem_of_find?_eq_some key c.accessCounter c.accessOrder hstamp
      have heqv : kv0.2 = c.accessCounter :=
        value_unique_of_nodup c.accessOrder key kv0.2 c.accessCounter hnd
          hkv0pair hkeypair
      have := hmin kvo hkvo_mem
      omega
    have hsurvive : key ∈ JsMap.keys c.evictLRU.cache := by
      by_cases hblank : kv0.1 = ""
      · rw [evictLRU_eq_self c kv0 hfo hblank]
        exact hkey
      · rw [evictLRU_eq c kv0 hfo hblank]
        have hproj : ({ c with
            cache := JsMap.delete kv0.1 c.cache
            accessOrder := JsMap.delete kv0.1 c.accessOrder } :
              MemoryCache V).cache = JsMap.delete kv0.1 c.cache := rfl
        rw [hproj, JsMap.keys_delete, List.mem_filter]
        refine ⟨hkey, by simpa using Ne.symm hkv0_ne_key⟩
    simp only [JsMap.mem_keys_set_iff]
    exact Or.inr hsurvive
  · rw [if_neg hcond]
    simp only [JsMap.mem_keys_set_iff]
    exact Or.inr hkey

/-- **C8 (amended).** Eviction policy of the two caches. `MemoryCache`
implements the claimed behavior: every `get` and every `set` of a key
stamps it most-recently-accessed; eviction (when inserting a new key
into a full cache) removes a key carrying the minimal access stamp; and
consequently a key freshly read by `get` is never the one evicted by the
following insertion, as long as any other key exists. `EnhancedCache`,
by contrast, evicts the *first-inserted* key of its map (FIFO, even when
merely overwriting an existing key at capacity), and its reads do not
refresh recency — a fresh hit leaves the cache state untouched. -/
theorem cache_eviction_policy (V : Type) :
    (∀ (c : MemoryCache V) (key : String) (now : Int) (opts : CacheOptions)
        (f : Except JsError V),
      JsMap.find? key ((c.get key now opts f).2).accessOrder
        = some ((c.get key now opts f).2).accessCounter) ∧
    (∀ (c : MemoryCache V) (key : String) (v : V) (opts : CacheOptions)
        (now : Int),
      JsMap.find? key ((c.set key v opts now).accessOrder)
        = some (c.set key v opts now).accessCounter) ∧
    (∀ (c : MemoryCache V) (kv : String × Nat),
      findOldest c.accessOrder = some kv → kv.1 ≠ "" →
      (c.evictLRU).cache = JsMap.delete kv.1 c.cache ∧
      kv ∈ c.accessOrder ∧ ∀ kv' ∈ c.accessOrder, kv.2 ≤ kv'.2) ∧
    (∀ (c : MemoryCache V) (key k2 : String) (now now2 : Int)
        (opts opts2 : CacheOptions) (f : Except JsError V) (v2 : V),
      (JsMap.keys c.accessOrder).Nodup →
      (∀ kv ∈ c.accessOrder, kv.2 ≤ c.accessCounter) →
      key ∈ JsMap.keys c.cache →
      (∃ kv ∈ c.accessOrder, kv.1 ≠ key) →
      key ∈ JsMap.keys ((((c.get key now opts f).2).set k2 v2 opts2 now2).cache)) ∧
    (∀ (c : EnhancedCache V) (key k0 : String) (v : V) (now : Int),
      c.config.maxSize ≤ c.cache.length →
      JsMap.firstKey? c.cache = some k0 → k0 ≠ "" →
      (c.set key v now).cache
        = JsMap.set key ⟨v, now, false⟩ (JsMap.delete k0 c.cache)) ∧
    (∀ (c : EnhancedCache V) (key : String) (now : Int) (f : Except JsError V)
        (entry : CacheEntry V),
      JsMap.find? key c.cache = some entry →
      now - entry.timestamp < c.config.ttlMs →
      (c.get key now f).1 = (.ok entry.data, .fresh) ∧
      (c.get key now f).2 = c) := by
  refine ⟨memoryCache_get_stamps, ?_, ?_, ?_, ?_, ?_⟩
  · intro c key v opts now
    simp [MemoryCache.set, JsMap.find?_set_self]
  · intro c kv hfo hne
    refine ⟨?_, findOldest_mem _ _ hfo, findOldest_min _ _ hfo⟩
    rw [evictLRU_eq c kv hfo hne]
  · intro c key k2 now now2 opts opts2 f v2 hnd hbound hkey hother
    apply memoryCache_set_keeps_fresh_key
    · exact memoryCache_get_nodup c key now opts f hkey hnd
    · exact memoryCache_get_stamps c key now opts f
    · obtain ⟨kv, hkv_mem, hkv_ne⟩ := hother
      refine ⟨kv, (memoryCache_get_accessOrder c key now opts f hkey).2 kv
        hkv_mem hkv_ne, hkv_ne, ?_⟩
      have h1 := hbound kv hkv_mem
      have h2 := (memoryCache_get_accessOrder c key now opts f hkey).1
      omega
    · rw [memoryCache_get_keys c key now opts f hkey]
      exact hkey
  · intro c key k0 v now hfull hfirst hne
    rw [EnhancedCache.set]
    simp only [hfull, if_true, hfirst, hne, if_false, if_pos]
  · intro c key now f entry hfind hfr
    constructor <;> simp [EnhancedCache.get, hfind, hfr]

/-- Counterexample for C8 as stated: an `EnhancedCache` of capacity 2
filled with `"a"` then `"b"`; reading `"a"` (a fresh hit returning its
cached value) does not refresh its recency, and the subsequent insertion
of `"c"` evicts `"a"` — the key read after `"b"`'s insertion is exactly
the one evicted, contradicting the claimed LRU policy. -/
theorem enhancedCache_fifo_counterexample :
    ((((EnhancedCache.empty ⟨100, 2, none⟩).set "a" (1 : Int) 0).set "b" 2 1).get
        "a" 2 (.ok 9)).1 = (.ok 1, .fresh) ∧
    JsMap.find? "a" ((EnhancedCache.applyOps (EnhancedCache.empty ⟨100, 2, none⟩)
        [.setOp "a" (1 : Int) 0, .setOp "b" 2 1, .getOp "a" 2 (.ok 9),
          .setOp "c" 3 3]).cache) = none ∧
    (JsMap.find? "b" ((EnhancedCache.applyOps (EnhancedCache.empty ⟨100, 2, none⟩)
        [.setOp "a" (1 : Int) 0, .setOp "b" 2 1, .getOp "a" 2 (.ok 9),
          .setOp "c" 3 3]).cache)).isSome = true := by
  refine ⟨by decide, by decide, by decide⟩

/-- Witness for C8 (amended): in a concrete full `MemoryCache` holding
`"a"` (stamp 1) and `"b"` (stamp 2), reading `"a"` then inserting `"c"`
evicts `"b"`, not the freshly read `"a"`; and a full `EnhancedCache`
holding `"a"`, `"b"` evicts the first-inserted `"a"` on `set "c"`. -/
theorem cache_eviction_policy_witness :
    "a" ∈ JsMap.keys (((((MemoryCache.empty 2 : MemoryCache Int).set "a" 1
        ⟨100, none⟩ 0).set "b" 2 ⟨100, none⟩ 1).get "a" 2 ⟨100, none⟩
          (.ok 9)).2.set "c" 3 ⟨100, none⟩ 3).cache ∧
    ((((EnhancedCache.empty ⟨100, 2, none⟩).set "a" (1 : Int) 0).set "b" 2
        1).set "c" 3 3).cache
      = JsMap.set "c" ⟨3, 3, false⟩ (JsMap.delete "a"
          ((((EnhancedCache.empty ⟨100, 2, none⟩).set "a" (1 : Int) 0).set "b"
            2 1).cache)) := by
  constructor
  · exact (cache_eviction_policy Int).2.2.2.1
      (((MemoryCache.empty 2).set "a" 1 ⟨100, none⟩ 0).set "b" 2 ⟨100, none⟩ 1)
      "a" "c" 2 3 ⟨100, none⟩ ⟨100, none⟩ (.ok 9) 3
      (by decide) (by decide) (by decide)
      ⟨("b", 2), by decide, by decide⟩
  · exact (cache_eviction_policy Int).2.2.2.2.1
      (((EnhancedCache.empty ⟨100, 2, none⟩).set "a" (1 : Int) 0).set "b" 2 1)
      "c" "a" 3 3 (by decide) (by decide) (by decide)

/-! ## C10: size invariants -/

theorem mem_keys_delete_iff (k k' : String) (m : JsMap β) :
    k' ∈ JsMap.keys (JsMap.delete k m) ↔ k' ∈ JsMap.keys m ∧ k' ≠ k := by
  rw [JsMap.keys_delete, List.mem_filter]
  simp

theorem exists_of_mem_keys (k : String) (m : JsMap β)
    (h : k ∈ JsMap.keys m) : ∃ v, (k, v) ∈ m := by
  rw [JsMap.keys] at h
  obtain ⟨kv, hkv, hk⟩ := List.mem_map.mp h
  refine ⟨kv.2, ?_⟩
  have : kv = (kv.1, kv.2) := rfl
  rw [hk] at this
  rw [← this]
  exact hkv

/-- Well-formedness of an `EnhancedCache` under a fixed configuration:
duplicate-free non-empty keys and the size bound. -/
def EnhancedCache.good (cfg : CacheConfig) (c : EnhancedCache V) : Prop :=
  c.config = cfg ∧ (JsMap.keys c.cache).Nodup ∧
  (∀ k ∈ JsMap.keys c.cache, k ≠ "") ∧ c.cache.length ≤ cfg.maxSize

theorem enhancedCache_set_good (cfg : CacheConfig) (hmax : 1 ≤ cfg.maxSize)
    (c : EnhancedCache V) (h : c.good cfg) (key : String) (hk : key ≠ "")
    (v : V) (now : Int) : (c.set key v now).good cfg := by
  obtain ⟨hcfg, hnd, hblank, hlen⟩ := h
  rw [EnhancedCache.set]
  by_cases hfull : c.config.maxSize ≤ c.cache.length
  · rw [if_pos hfull]
    have hlenM : c.cache.length = cfg.maxSize := by
      rw [hcfg] at hfull
      omega
    have hc_ne : c.cache ≠ [] := by
      intro hnil
      rw [hnil] at hlenM
      simp only [List.length_nil] at hlenM
      omega
    obtain ⟨kv, rest, hcons⟩ : ∃ kv rest, c.cache = kv :: rest := by
      cases hc : c.cache with
      | nil => exact absurd hc hc_ne
      | cons kv rest => exact ⟨kv, rest, rfl⟩
    have hfirst : JsMap.firstKey? c.cache = some kv.1 := by
      rw [hcons]; rfl
    rw [hfirst]
    have hkv_mem : kv.1 ∈ JsMap.keys c.cache := by
      rw [hcons]
      exact List.mem_map_of_mem _ (List.mem_cons_self kv rest)
    have hkv_blank : kv.1 ≠ "" := hblank _ hkv_mem
    have hred : (match some kv.1 with
        | some k0 => if k0 = "" then c.cache else JsMap.delete k0 c.cache
        | none => c.cache)
        = if kv.1 = "" then c.cache else JsMap.delete kv.1 c.cache := rfl
    rw [hred, if_neg hkv_blank]
    have hdel_len : (JsMap.delete kv.1 c.cache).length + 1 = cfg.maxSize := by
      rw [← hlenM]
      exact JsMap.length_delete_of_mem kv.1 c.cache hnd hkv_mem
    refine ⟨hcfg, ?_, ?_, ?_⟩
    · exact JsMap.nodup_keys_set _ _ _ (JsMap.nodup_keys_delete _ _ hnd)
    · intro k hkm
      rcases (JsMap.mem_keys_set_iff _ _ _ _).1 hkm with hh | hh
      · exact hh ▸ hk
      · exact hblank _ ((mem_keys_delete_iff _ _ _).1 hh).1
    · rw [JsMap.length_set]
      by_cases hkin : key ∈ JsMap.keys (JsMap.delete kv.1 c.cache)
      · rw [if_pos hkin]; omega
      · rw [if_neg hkin]; omega
  · rw [if_neg hfull]
    rw [hcfg] at hfull
    refine ⟨hcfg, JsMap.nodup_keys_set _ _ _ hnd, ?_, ?_⟩
    · intro k hkm
      rcases (JsMap.mem_keys_set_iff _ _ _ _).1 hkm with hh | hh
      · exact hh ▸ hk
      · exact hblank _ hh
    · rw [JsMap.length_set]
      by_cases hkin : key ∈ JsMap.keys c.cache
      · rw [if_pos hkin]; omega
      · rw [if_neg hkin]; omega

theorem enhancedCache_applyOp_good (cfg : CacheConfig) (hmax : 1 ≤ cfg.maxSize)
    (c : EnhancedCache V) (h : c.good cfg) (op : CacheOp V)
    (hop : op.key ≠ "") : (c.applyOp op).good cfg := by
  cases op with
  | setOp key v now => exact enhancedCache_set_good cfg hmax c h key hop v now
  | revalidateOk key v now =>
      have hset := enhancedCache_set_good cfg hmax c h key hop v now
      obtain ⟨h1, h2, h3, h4⟩ := hset
      exact ⟨h1, h2, h3, h4⟩
  | revalidateErr key => exact h
  | getOp key now f =>
      show ((c.get key now f).2).good cfg
      rw [EnhancedCache.get.eq_def]
      cases hfind : JsMap.find? key c.cache with
      | none =>
          cases f with
          | ok v =>
              simp only []
              exact enhancedCache_set_good cfg hmax c h key hop v now
          | error e => exact h
      | some entry =>
          by_cases hfr : now - entry.timestamp < c.config.ttlMs
          · simp only [hfr, if_true]
            exact h
          · by_cases hgate : staleGate c.config.staleWhileRevalidateMs
                (now - entry.timestamp) = true
            · by_cases hmem : key ∈ c.revalidationPromises
              · simp only [hfr, if_false, hgate, if_true, hmem]
                exact h
              · simp only [hfr, if_false, hgate, if_true, hmem]
                exact h
            · simp only [hfr, if_false, hgate, Bool.false_eq_true]
              cases f with
              | ok v =>
                  simp only []
                  exact enhancedCache_set_good cfg hmax c h key hop v now
              | error e => exact h

theorem enhancedCache_applyOps_good (cfg : CacheConfig)
    (hmax : 1 ≤ cfg.maxSize) :
    ∀ (ops : List (CacheOp V)) (c : EnhancedCache V), c.good cfg →
      (∀ op ∈ ops, op.key ≠ "") → (c.applyOps ops).good cfg := by
  intro ops
  induction ops with
  | nil => intro c h _; exact h
  | cons op rest ih =>
      intro c h hops
      have h1 := enhancedCache_applyOp_good cfg hmax c h op
        (hops op (List.mem_cons_self op rest))
      exact ih (c.applyOp op) h1
        (fun o ho => hops o (List.mem_cons_of_mem op ho))

/-- Well-formedness of a `MemoryCache` of capacity `M`: duplicate-free
non-empty keys, the recency map tracking exactly the stored keys with
stamps bounded by the counter, and the size bound. -/
def MemoryCache.good (M : Nat) (c : MemoryCache V) : Prop :=
  c.maxSize = M ∧
  (JsMap.keys c.cache).Nodup ∧
  (JsMap.keys c.accessOrder).Nodup ∧
  (∀ k, k ∈ JsMap.keys c.cache ↔ k ∈ JsMap.keys c.accessOrder) ∧
  (∀ k ∈ JsMap.keys c.accessOrder, k ≠ "") ∧
  (∀ kv ∈ c.accessOrder, kv.2 ≤ c.accessCounter) ∧
  c.cache.length ≤ M

/-- `MemoryCache.set` preserves well-formedness, stated with a relaxed
key-tracking precondition (the recency map may carry one extra record
for the key being stored — the shape `get` leaves behind on a miss). -/
theorem memoryCache_set_good_core (M : Nat) (hM : 1 ≤ M) (c : MemoryCache V)
    (key : String) (v : V) (opts : CacheOptions) (now : Int)
    (hmax : c.maxSize = M)
    (hndc : (JsMap.keys c.cache).Nodup)
    (hnda : (JsMap.keys c.accessOrder).Nodup)
    (hsub : ∀ k ∈ JsMap.keys c.cache, k ∈ JsMap.keys c.accessOrder)
    (hsup : ∀ k ∈ JsMap.keys c.accessOrder, k ∈ JsMap.keys c.cache ∨ k = key)
    (hkb : key ≠ "")
    (hblank : ∀ k ∈ JsMap.keys c.accessOrder, k ≠ "")
    (hbound : ∀ kv ∈ c.accessOrder, kv.2 ≤ c.accessCounter)
    (hfresh : key ∉ JsMap.keys c.cache →
      ∀ a, (key, a) ∈ c.accessOrder →
      ∀ kv ∈ c.accessOrder, kv.1 ≠ key → kv.2 < a)
    (hlen : c.cache.length ≤ M) :
    MemoryCache.good M (c.set key v opts now) := by
  rw [MemoryCache.set]
  by_cases hcond : c.maxSize ≤ c.cache.length ∧
      (JsMap.find? key c.cache).isNone = true
  · rw [if_pos hcond]
    have hkey_not : key ∉ JsMap.keys c.cache := by
      intro hkm
      have := (JsMap.find?_isSome_iff_mem_keys key c.cache).2 hkm
      cases hfk : JsMap.find? key c.cache with
      | none => rw [hfk] at this; simp at this
      | some e =>
          have := hcond.2
          rw [hfk] at this
          simp at this
    have hlenM : c.cache.length = M := by
      have := hcond.1
      rw [hmax] at this
      omega
    have hc_ne : c.cache ≠ [] := by
      intro hnil
      rw [hnil] at hlenM
      simp only [List.length_nil] at hlenM
      omega
    obtain ⟨kv1, hkv1⟩ : ∃ kv1, kv1 ∈ c.cache := by
      cases hc : c.cache with
      | nil => exact absurd hc hc_ne
      | cons a b => exact ⟨a, hc ▸ List.mem_cons_self a b⟩
    have hk1_mem : kv1.1 ∈ JsMap.keys c.cache := List.mem_map_of_mem _ hkv1
    have hk1_ne_key : kv1.1 ≠ key := fun he => hkey_not (he ▸ hk1_mem)
    have hk1_ao : kv1.1 ∈ JsMap.keys c.accessOrder := hsub _ hk1_mem
    obtain ⟨a1, ha1⟩ := exists_of_mem_keys _ _ hk1_ao
    have hao_ne : c.accessOrder ≠ [] := by
      intro hnil
      rw [hnil] at ha1
      simp at ha1
    obtain ⟨kv0, hfo⟩ : ∃ kv0, findOldest c.accessOrder = some kv0 := by
      have hs := findOldest_isSome c.accessOrder hao_ne
      cases hh : findOldest c.accessOrder with
      | none => rw [hh] at hs; simp at hs
      | some kv0 => exact ⟨kv0, rfl⟩
    have hmem0 := findOldest_mem _ _ hfo
    have hmin0 := findOldest_min _ _ hfo
    have hkv0_ne : kv0.1 ≠ key := by
      intro he
      have hpair : (key, kv0.2) ∈ c.accessOrder := by
        have hp : kv0 = (kv0.1, kv0.2) := rfl
        rw [he] at hp
        exact hp ▸ hmem0
      have hlt := hfresh hkey_not kv0.2 hpair (kv1.1, a1) ha1 hk1_ne_key
      have hle := hmin0 (kv1.1, a1) ha1
      simp only at hlt hle
      omega
    have hkv0_blank : kv0.1 ≠ "" := hblank _ (List.mem_map_of_mem _ hmem0)
    have hkv0_cache : kv0.1 ∈ JsMap.keys c.cache := by
      rcases hsup _ (List.mem_map_of_mem _ hmem0) with h | h
      · exact h
      · exact absurd h hkv0_ne
    rw [evictLRU_eq c kv0 hfo hkv0_blank]
    have hdel_len : (JsMap.delete kv0.1 c.cache).length + 1 = M := by
      rw [← hlenM]
      exact JsMap.length_delete_of_mem kv0.1 c.cache hndc hkv0_cache
    refine ⟨hmax, ?_, ?_, ?_, ?_, ?_, ?_⟩
    · exact JsMap.nodup_keys_set _ _ _ (JsMap.nodup_keys_delete _ _ hndc)
    · exact JsMap.nodup_keys_set _ _ _ (JsMap.nodup_keys_delete _ _ hnda)
    · intro k
      show k ∈ JsMap.keys (JsMap.set key
          (⟨v, now, opts.ttl, opts.staleWhileRevalidate, false⟩ : MEntry V)
          (JsMap.delete kv0.1 c.cache)) ↔
        k ∈ JsMap.keys (JsMap.set key (c.accessCounter + 1)
          (JsMap.delete kv0.1 c.accessOrder))
      rw [JsMap.mem_keys_set_iff, JsMap.mem_keys_set_iff,
        mem_keys_delete_iff, mem_keys_delete_iff]
      constructor
      · rintro (h | ⟨hm, hne⟩)
        · exact Or.inl h
        · exact Or.inr ⟨hsub _ hm, hne⟩
      · rintro (h | ⟨hm, hne⟩)
        · exact Or.inl h
        · rcases hsup _ hm with h2 | h2
          · exact Or.inr ⟨h2, hne⟩
          · exact Or.inl h2
    · intro k hkm
      rcases (JsMap.mem_keys_set_iff _ _ _ _).1 hkm with h | h
      · exact h ▸ hkb
      · exact hblank _ ((mem_keys_delete_iff _ _ _).1 h).1
    · intro kv hkv
      show kv.2 ≤ c.accessCounter + 1
      rcases JsMap.mem_of_mem_set _ _ _ _ hkv with h | h
      · rw [h]
      · have := hbound kv ((JsMap.mem_delete_iff _ _ _).1 h).1
        omega
    · show (JsMap.set key
          (⟨v, now, opts.ttl, opts.staleWhileRevalidate, false⟩ : MEntry V)
          (JsMap.delete kv0.1 c.cache)).length ≤ M
      rw [JsMap.length_set]
      by_cases hkin : key ∈ JsMap.keys (JsMap.delete kv0.1 c.cache)
      · rw [if_pos hkin]; omega
      · rw [if_neg hkin]; omega
  · rw [if_neg hcond]
    refine ⟨hmax, ?_, ?_, ?_, ?_, ?_, ?_⟩
    · exact JsMap.nodup_keys_set _ _ _ hndc
    · exact JsMap.nodup_keys_set _ _ _ hnda
    · intro k
      show k ∈ JsMap.keys (JsMap.set key
          (⟨v, now, opts.ttl, opts.staleWhileRevalidate, false⟩ : MEntry V)
          c.cache) ↔
        k ∈ JsMap.keys (JsMap.set key (c.accessCounter + 1) c.accessOrder)
      rw [JsMap.mem_keys_set_iff, JsMap.mem_keys_set_iff]
      constructor
      · rintro (h | h)
        · exact Or.inl h
        · exact Or.inr (hsub _ h)
      · rintro (h | h)
        · exact Or.inl h
        · rcases hsup _ h with h2 | h2
          · exact Or.inr h2
          · exact Or.inl h2
    · intro k hkm
      rcases (JsMap.mem_keys_set_iff _ _ _ _).1 hkm with h | h
      · exact h ▸ hkb
      · exact hblank _ h
    · intro kv hkv
      show kv.2 ≤ c.accessCounter + 1
      rcases JsMap.mem_of_mem_set _ _ _ _ hkv with h | h
      · rw [h]
      · have := hbound kv h
        omega
    · show (JsMap.set key
          (⟨v, now, opts.ttl, opts.staleWhileRevalidate, false⟩ : MEntry V)
          c.cache).length ≤ M
      rw [JsMap.length_set]
      by_cases hkin : key ∈ JsMap.keys c.cache
      · rw [if_pos hkin]; omega
      · rw [if_neg hkin]
        have hnone : (JsMap.find? key c.cache).isNone = true := by
          rw [JsMap.find?_eq_none_of_not_mem_keys key c.cache hkin]
          rfl
        have : ¬ c.maxSize ≤ c.cache.length := fun hh => hcond ⟨hh, hnone⟩
        rw [hmax] at this
        omega

/-- Direct `set` preservation on a well-formed state. -/
theorem memoryCache_set_good (M : Nat) (hM : 1 ≤ M) (c : MemoryCache V)
    (h : c.good M) (key : String) (hkb : key ≠ "") (v : V)
    (opts : CacheOptions) (now : Int) : (c.set key v opts now).good M := by
  obtain ⟨h1, h2, h3, h4, h5, h6, h7⟩ := h
  refine memoryCache_set_good_core M hM c key v opts now h1 h2 h3
    (fun k hk => (h4 k).1 hk) (fun k hk => Or.inl ((h4 k).2 hk)) hkb h5 h6
    ?_ h7
  intro hkey a ha
  exfalso
  exact hkey ((h4 key).2 (List.mem_map_of_mem _ ha))

/-- Bumping a present key's recency stamp preserves well-formedness. -/
theorem memoryCache_stamp_good (M : Nat) (c : MemoryCache V)
    (h : c.good M) (key : String) (hkmem : key ∈ JsMap.keys c.cache) :
    MemoryCache.good M
      { c with accessOrder := JsMap.set key (c.accessCounter + 1) c.accessOrder
               accessCounter := c.accessCounter + 1 } := by
  obtain ⟨h1, h2, h3, h4, h5, h6, h7⟩ := h
  have hka : key ∈ JsMap.keys c.accessOrder := (h4 key).1 hkmem
  have hkeys : JsMap.keys (JsMap.set key (c.accessCounter + 1) c.accessOrder)
      = JsMap.keys c.accessOrder := by
    rw [JsMap.keys_set, if_pos hka]
  refine ⟨h1, h2, ?_, ?_, ?_, ?_, h7⟩
  · show (JsMap.keys (JsMap.set key (c.accessCounter + 1) c.accessOrder)).Nodup
    rw [hkeys]; exact h3
  · intro k
    show k ∈ JsMap.keys c.cache ↔
      k ∈ JsMap.keys (JsMap.set key (c.accessCounter + 1) c.accessOrder)
    rw [hkeys]; exact h4 k
  · intro k hk
    show k ≠ ""
    rw [hkeys] at hk
    exact h5 k hk
  · intro kv hkv
    show kv.2 ≤ c.accessCounter + 1
    rcases JsMap.mem_of_mem_set _ _ _ _ hkv with hh | hh
    · rw [hh]
    · have := h6 kv hh
      omega

/-- `MemoryCache.get` with a successful loader preserves
well-formedness. -/
theorem memoryCache_get_good (M : Nat) (hM : 1 ≤ M) (c : MemoryCache V)
    (h : c.good M) (key : String) (hkb : key ≠ "") (now : Int)
    (opts : CacheOptions) (v : V) :
    ((c.get key now opts (.ok v)).2).good M := by
  obtain ⟨h1, h2, h3, h4, h5, h6, h7⟩ := h
  rw [MemoryCache.get.eq_def]
  cases hfind : JsMap.find? key c.cache with
  | none =>
      have hkey_not : key ∉ JsMap.keys c.cache := by
        intro hk
        have := (JsMap.find?_isSome_iff_mem_keys key c.cache).2 hk
        rw [hfind] at this
        simp at this
      simp only []
      -- the stamped state, then the store
      refine memoryCache_set_good_core M hM _ key v opts now h1 h2
        (JsMap.nodup_keys_set _ _ _ h3) ?_ ?_ hkb ?_ ?_ ?_ h7
      · intro k hk
        exact (JsMap.mem_keys_set_iff _ _ _ _).2 (Or.inr ((h4 k).1 hk))
      · intro k hk
        rcases (JsMap.mem_keys_set_iff _ _ _ _).1 hk with hh | hh
        · exact Or.inr hh
        · exact Or.inl ((h4 k).2 hh)
      · intro k hk
        rcases (JsMap.mem_keys_set_iff _ _ _ _).1 hk with hh | hh
        · exact hh ▸ hkb
        · exact h5 k hh
      · intro kv hkv
        show kv.2 ≤ c.accessCounter + 1
        rcases JsMap.mem_of_mem_set _ _ _ _ hkv with hh | hh
        · rw [hh]
        · have := h6 kv hh
          omega
      · intro _ a ha kv hkv hne
        have hnds : (JsMap.keys (JsMap.set key (c.accessCounter + 1)
            c.accessOrder)).Nodup := JsMap.nodup_keys_set _ _ _ h3
        have hka : a = c.accessCounter + 1 := by
          have hf1 := JsMap.find?_eq_some_of_mem key a _ hnds ha
          have hf2 := JsMap.find?_set_self key (c.accessCounter + 1)
            c.accessOrder
          rw [hf1] at hf2
          exact Option.some_inj.mp hf2
        have hkv_old : kv ∈ c.accessOrder := by
          rcases JsMap.mem_of_mem_set _ _ _ _ hkv with hh | hh
          · exfalso
            apply hne
            rw [hh]
          · exact hh
        have := h6 kv hkv_old
        show kv.2 < a
        omega
  | some entry =>
      have hkmem : key ∈ JsMap.keys c.cache := by
        apply (JsMap.find?_isSome_iff_mem_keys key c.cache).1
        rw [hfind]
        rfl
      by_cases hfr : ¬ entry.ttl < now - entry.timestamp
      · simp only [hfr, if_true]
        exact memoryCache_stamp_good M c ⟨h1, h2, h3, h4, h5, h6, h7⟩ key hkmem
      · by_cases hexp : mExpired entry (now - entry.timestamp) = true
        · simp only [hfr, if_false, hexp, if_true]
          have hstamp := memoryCache_stamp_good M c
            ⟨h1, h2, h3, h4, h5, h6, h7⟩ key hkmem
          obtain ⟨g1, g2, g3, g4, g5, g6, g7⟩ := hstamp
          refine memoryCache_set_good_core M hM _ key v opts now g1 g2 g3
            (fun k hk => (g4 k).1 hk) (fun k hk => Or.inl ((g4 k).2 hk))
            hkb g5 g6 ?_ g7
          intro hkey a ha
          exact absurd hkmem hkey
        · cases hrp : entry.refreshPromise
          · simp only [hfr, if_false, hexp, hrp, Bool.false_eq_true, if_false]
            have hstamp := memoryCache_stamp_good M c
              ⟨h1, h2, h3, h4, h5, h6, h7⟩ key hkmem
            obtain ⟨g1, g2, g3, g4, g5, g6, g7⟩ := hstamp
            have hkeys2 : JsMap.keys (JsMap.set key
                { entry with refreshPromise := true } c.cache)
                = JsMap.keys c.cache := by
              rw [JsMap.keys_set, if_pos hkmem]
            refine ⟨g1, ?_, g3, ?_, g5, g6, ?_⟩
            · show (JsMap.keys (JsMap.set key
                { entry with refreshPromise := true } c.cache)).Nodup
              rw [hkeys2]; exact h2
            · intro k
              show k ∈ JsMap.keys (JsMap.set key
                  { entry with refreshPromise := true } c.cache) ↔ _
              rw [hkeys2]
              exact g4 k
            · show (JsMap.set key { entry with refreshPromise := true }
                  c.cache).length ≤ M
              rw [JsMap.length_set, if_pos hkmem]
              exact h7
          · simp only [hfr, if_false, hexp, hrp, if_true]
            exact memoryCache_stamp_good M c
              ⟨h1, h2, h3, h4, h5, h6, h7⟩ key hkmem

/-- The key an operation addresses. -/
def MCacheOp.key : MCacheOp V → String
  | .getOp k _ _ _ => k
  | .setOp k _ _ _ => k

/-- Whether a `get` operation carries a successful loader result (`set`
operations trivially qualify). -/
def MCacheOp.okFetch : MCacheOp V → Prop
  | .getOp _ _ _ f => ∃ v, f = .ok v
  | .setOp _ _ _ _ => True

theorem memoryCache_applyOps_good (M : Nat) (hM : 1 ≤ M) :
    ∀ (ops : List (MCacheOp V)) (c : MemoryCache V), c.good M →
      (∀ op ∈ ops, op.key ≠ "" ∧ op.okFetch) →
      ((c.applyOps ops)).good M := by
  intro ops
  induction ops with
  | nil => intro c h _; exact h
  | cons op rest ih =>
      intro c h hops
      have hop := hops op (List.mem_cons_self op rest)
      have h1 : (c.applyOp op).good M := by
        cases op with
        | setOp k v opts now =>
            exact memoryCache_set_good M hM c h k hop.1 v opts now
        | getOp k now opts f =>
            obtain ⟨v, hv⟩ := hop.2
            show ((c.get k now opts f).2).good M
            rw [hv]
            exact memoryCache_get_good M hM c h k hop.1 now opts v
      exact ih (c.applyOp op) h1
        (fun o ho => hops o (List.mem_cons_of_mem op ho))

/-- **C10 (amended).** Size bounds for the two caches, under the
hypotheses the code's falsy guards force: with `maxSize >= 1` and no
empty-string keys, any sequence of `get`/`set` operations (and, for
`EnhancedCache`, background-revalidation completions) keeps the entry
count at or below `maxSize`; for `MemoryCache` the `get` loaders must
additionally succeed, since a failed miss leaves a phantom recency record
that can turn a later eviction into a no-op. Moreover, replacing an
already-present key never grows an `EnhancedCache`. -/
theorem cache_size_never_exceeds (V : Type) :
    (∀ cfg : CacheConfig, 1 ≤ cfg.maxSize →
      ∀ ops : List (CacheOp V), (∀ op ∈ ops, op.key ≠ "") →
      ((EnhancedCache.empty cfg).applyOps ops).cache.length ≤ cfg.maxSize) ∧
    (∀ M : Nat, 1 ≤ M →
      ∀ ops : List (MCacheOp V), (∀ op ∈ ops, op.key ≠ "" ∧ op.okFetch) →
      ((MemoryCache.empty M : MemoryCache V).applyOps ops).cache.length ≤ M) ∧
    (∀ (c : EnhancedCache V) (key : String) (v : V) (now : Int),
      key ∈ JsMap.keys c.cache → (JsMap.keys c.cache).Nodup →
      (c.set key v now).cache.length ≤ c.cache.length) := by
  refine ⟨?_, ?_, ?_⟩
  · intro cfg hmax ops hops
    have hempty : (EnhancedCache.empty cfg : EnhancedCache V).good cfg := by
      refine ⟨rfl, ?_, ?_, ?_⟩
      · simp [EnhancedCache.empty, JsMap.keys]
      · intro k hk
        simp [EnhancedCache.empty, JsMap.keys] at hk
      · simp [EnhancedCache.empty]
    exact (enhancedCache_applyOps_good cfg hmax ops _ hempty hops).2.2.2
  · intro M hM ops hops
    have hempty : (MemoryCache.empty M : MemoryCache V).good M := by
      refine ⟨rfl, ?_, ?_, ?_, ?_, ?_, ?_⟩ <;>
        simp [MemoryCache.empty, JsMap.keys]
    exact (memoryCache_applyOps_good M hM ops _ hempty hops).2.2.2.2.2.2
  · intro c key v now hkey hnd
    rw [EnhancedCache.set]
    by_cases hfull : c.config.maxSize ≤ c.cache.length
    · rw [if_pos hfull]
      have hc_ne : c.cache ≠ [] := by
        intro hnil
        rw [hnil] at hkey
        simp [JsMap.keys] at hkey
      obtain ⟨kv, rest, hcons⟩ : ∃ kv rest, c.cache = kv :: rest := by
        cases hc : c.cache with
        | nil => exact absurd hc hc_ne
        | cons kv rest => exact ⟨kv, rest, rfl⟩
      have hfirst : JsMap.firstKey? c.cache = some kv.1 := by
        rw [hcons]; rfl
      rw [hfirst]
      have hred : (match some kv.1 with
          | some k0 => if k0 = "" then c.cache else JsMap.delete k0 c.cache
          | none => c.cache)
          = if kv.1 = "" then c.cache else JsMap.delete kv.1 c.cache := rfl
      rw [hred]
      by_cases hblank : kv.1 = ""
      · rw [if_pos hblank, JsMap.length_set, if_pos hkey]
      · rw [if_neg hblank]
        have hkv_mem : kv.1 ∈ JsMap.keys c.cache := by
          rw [hcons]
          exact List.mem_map_of_mem _ (List.mem_cons_self kv rest)
        have hdel := JsMap.length_delete_of_mem kv.1 c.cache hnd hkv_mem
        rw [JsMap.length_set]
        by_cases hkin : key ∈ JsMap.keys (JsMap.delete kv.1 c.cache)
        · rw [if_pos hkin]; omega
        · rw [if_neg hkin]; omega
    · rw [if_neg hfull, JsMap.length_set, if_pos hkey]

/-- Counterexample for C10 as stated: an `EnhancedCache` constructed with
`maxSize = 1`; storing under the key `""` and then under `"b"` leaves 2
entries — the falsy `if (firstKey)` guard sees the empty-string first key
and skips the eviction, so the size exceeds `maxSize`. -/
theorem enhancedCache_size_counterexample :
    (EnhancedCache.empty (⟨100, 1, none⟩ : CacheConfig) :
        EnhancedCache Int).config.maxSize = 1 ∧
    ((EnhancedCache.empty ⟨100, 1, none⟩ : EnhancedCache Int).applyOps
        [.setOp "" 1 0, .setOp "b" 2 1]).cache.length = 2 := by
  refine ⟨rfl, by decide⟩

/-- Witness for C10 (amended): both bounds applied to concrete operation
sequences that overfill a capacity-2 cache with non-empty keys, and the
no-growth fact applied to an overwrite in a full cache. -/
theorem cache_size_never_exceeds_witness :
    ((EnhancedCache.empty ⟨100, 2, none⟩ : EnhancedCache Int).applyOps
        [.setOp "a" 1 0, .setOp "b" 2 1, .getOp "a" 2 (.ok 9),
          .setOp "c" 3 3]).cache.length ≤ 2 ∧
    ((MemoryCache.empty 2 : MemoryCache Int).applyOps
        [.setOp "a" 1 ⟨100, none⟩ 0, .setOp "b" 2 ⟨100, none⟩ 1,
          .getOp "a" 2 ⟨100, none⟩ (.ok 9),
          .setOp "c" 3 ⟨100, none⟩ 3]).cache.length ≤ 2 ∧
    ((((EnhancedCache.empty ⟨100, 2, none⟩).set "a" (1 : Int) 0).set "b" 2
        1).set "a" 5 4).cache.length
      ≤ (((EnhancedCache.empty ⟨100, 2, none⟩).set "a" (1 : Int) 0).set "b" 2
        1).cache.length := by
  refine ⟨?_, ?_, ?_⟩
  · exact (cache_size_never_exceeds Int).1 ⟨100, 2, none⟩ (by decide)
      [.setOp "a" 1 0, .setOp "b" 2 1, .getOp "a" 2 (.ok 9), .setOp "c" 3 3]
      (by intro op hop; fin_cases hop <;> decide)
  · exact (cache_size_never_exceeds Int).2.1 2 (by decide)
      [.setOp "a" 1 ⟨100, none⟩ 0, .setOp "b" 2 ⟨100, none⟩ 1,
        .getOp "a" 2 ⟨100, none⟩ (.ok 9), .setOp "c" 3 ⟨100, none⟩ 3]
      (by intro op hop; fin_cases hop <;>
        exact ⟨by decide, by simp [MCacheOp.okFetch]⟩)
  · exact (cache_size_never_exceeds Int).2.2
      (((EnhancedCache.empty ⟨100, 2, none⟩).set "a" (1 : Int) 0).set "b" 2 1)
      "a" 5 4 (by decide) (by decide)

end Caltrain
